import Mathlib

/-!
# Dilated convolutional layer (`src/dilated_convolutional_layer.c`)

A shallow embedding of the CPU path of the dilated convolutional layer.

* C `int` values are integers (`Int`); C integer division is truncating division
  `Int.tdiv`.  The `int` products that `make_dilated_conv_layer` and
  `resize_dilated_conv_layer` store in the record or hand to the allocator are
  reduced to 32 bits (`to_int`), as the compiled program does; `size_t` arithmetic
  is taken modulo `2^64` (`to_size_t`).  Index arithmetic inside the loops is taken
  without overflow.
* C `float` values are elements of an arbitrary type `α` carrying exact
  arithmetic (a commutative ring, a field where a division occurs).
* A `float*` is a total map `Int → α` from element index to value; pointer
  arithmetic `p + off` is an index shift.  The NULL pointer is modelled for `scales`
  and `scale_updates` (`none`); a read through it ends the run.  Allocation sizes are
  not modelled, except the byte counts requested for `output` and `delta`.
* A C `for` loop is a left fold over `0, 1, ..., n-1`.
-/

namespace DilatedConv

/-! ## Memory and loops -/

/-- A `float*` buffer: the value stored at every element index. -/
abbrev Buf (α : Type) := Int → α

/-- Pointer arithmetic `p + off`, read side: element `i` of the result is element
`off + i` of `p`. -/
def shift {α : Type} (p : Buf α) (off : Int) : Buf α := fun i => p (off + i)

/-- The C loop `for(i = 0; i < n; ++i) s = body(i, s);`. -/
def loop {σ : Type} (n : Int) (body : Int → σ → σ) (s : σ) : σ :=
  (List.range n.toNat).foldl (fun (s : σ) (i : Nat) => body (i : Int) s) s

/-- The store `p[i] = v`. -/
def store {α : Type} (p : Buf α) (i : Int) (v : α) : Buf α :=
  fun q => if q = i then v else p q

/-! ## The layer record -/

/-- The pluggable activation: the elementwise function applied by
`activate_array` and the local derivative used by `gradient_array`. -/
structure ACTIVATION (α : Type) where
  /-- Elementwise forward function. -/
  activate : α → α
  /-- Local derivative, as a function of the activated output. -/
  gradient : α → α

/-- The fields of `dilated_convolutional_layer` that the CPU path reads or writes.
`scales` is optional because `update_dilated_conv_layer` tests `if(l.scales)`;
`scale_updates` is optional because `make_dilated_conv_layer` allocates it under
`batch_normalize` only while `update_dilated_conv_layer` reads it whenever `scales` is
set. -/
structure Layer (α : Type) where
  /-- Spacing of the kernel taps. -/
  dilate_rate : Int
  /-- Number of channel groups. -/
  groups : Int
  /-- Input height. -/
  h : Int
  /-- Input width. -/
  w : Int
  /-- Input channels. -/
  c : Int
  /-- Number of filters. -/
  n : Int
  /-- Flag: binary weights. -/
  binary : Int
  /-- Flag: XNOR network. -/
  xnor : Int
  /-- Batch size. -/
  batch : Int
  /-- Stride. -/
  stride : Int
  /-- Kernel size. -/
  size : Int
  /-- Symmetric padding. -/
  pad : Int
  /-- Flag: batch normalization. -/
  batch_normalize : Int
  /-- Weights, `nweights` floats. -/
  weights : Buf α
  /-- Weight gradient accumulator. -/
  weight_updates : Buf α
  /-- Biases, `n` floats. -/
  biases : Buf α
  /-- Bias gradient accumulator. -/
  bias_updates : Buf α
  /-- Number of weights. -/
  nweights : Int
  /-- Number of biases. -/
  nbiases : Int
  /-- Output height. -/
  out_h : Int
  /-- Output width. -/
  out_w : Int
  /-- Output channels. -/
  out_c : Int
  /-- Outputs per batch element. -/
  outputs : Int
  /-- Inputs per batch element. -/
  inputs : Int
  /-- Output buffer. -/
  output : Buf α
  /-- Output gradient buffer. -/
  delta : Buf α
  /-- Sign-quantized weights. -/
  binary_weights : Buf α
  /-- Sign-quantized input. -/
  binary_input : Buf α
  /-- Per-channel scales; `none` is the NULL pointer. -/
  scales : Option (Buf α)
  /-- Scale gradient accumulator; `none` is the NULL pointer. -/
  scale_updates : Option (Buf α)
  /-- Scratch bytes required of the network. -/
  workspace_size : Int
  /-- Activation kind. -/
  activation : ACTIVATION α
  /-- Per-layer multiplier of the learning rate. -/
  learning_rate_scale : α
  /-- Allocation bookkeeping, not a field of the C record: the byte count last
  requested for `output` from `calloc` or `realloc`. -/
  output_bytes : Int
  /-- Allocation bookkeeping, not a field of the C record: the byte count last
  requested for `delta` from `calloc` or `realloc`. -/
  delta_bytes : Int

/-- The fields of `network` used by the layer. `delta` is optional because
`backward_dilated_conv_layer` tests `if (net.delta)`. -/
structure Network (α : Type) where
  /-- Input tensor of the layer. -/
  input : Buf α
  /-- Gradient buffer of the previous layer; `none` is the NULL pointer. -/
  delta : Option (Buf α)
  /-- Shared scratch buffer. -/
  workspace : Buf α

/-- The fields of `update_args` used by the update rule. -/
structure update_args (α : Type) where
  /-- Learning rate. -/
  learning_rate : α
  /-- Momentum. -/
  momentum : α
  /-- Weight decay. -/
  decay : α
  /-- Effective batch size. -/
  batch : Int

/-! ## Output geometry (lines 16-27) -/

/-- The routine `dilated_conv_out_height`. -/
def dilated_conv_out_height {α : Type} (l : Layer α) : Int :=
  let dsize := (l.dilate_rate - 1) * (l.size + 1) + l.size
  (l.h + 2 * l.pad - dsize).tdiv l.stride + 1

/-- The routine `dilated_conv_out_width`. -/
def dilated_conv_out_width {α : Type} (l : Layer α) : Int :=
  let dsize := (l.dilate_rate - 1) * (l.size + 1) + l.size
  (l.w + 2 * l.pad - dsize).tdiv l.stride + 1

/-! ## Workspace size (lines 39-72, CPU path) -/

/-- The value a 32-bit `int` holds after an arithmetic operation whose mathematical
result is `x`: the two's complement representative of `x` modulo `2^32`, which is what
the compiled program computes (`x` itself when `-2^31 <= x < 2^31`). -/
def to_int (x : Int) : Int := (x + 2 ^ 31) % 2 ^ 32 - 2 ^ 31

/-- Conversion of an `int` to the 64-bit unsigned `size_t`. -/
def to_size_t (x : Int) : Int := x % 2 ^ 64

/-- The routine `get_workspace_size` without CUDNN:
`(size_t)l.out_h*l.out_w*l.size*l.size*l.c/l.groups*sizeof(float)`, evaluated left
to right in `size_t`, with `sizeof(float) = 4`. -/
def get_workspace_size {α : Type} (l : Layer α) : Int :=
  let p1 := to_size_t (to_size_t l.out_h * to_size_t l.out_w)
  let p2 := to_size_t (p1 * to_size_t l.size)
  let p3 := to_size_t (p2 * to_size_t l.size)
  let p4 := to_size_t (p3 * to_size_t l.c)
  let q := p4 / to_size_t l.groups
  to_size_t (q * 4)

/-! ## BLAS helpers -/

/-- Modelled from the spec: `fill_cpu(N, ALPHA, X, INCX)` lives in the BLAS file
outside the given source; §4.4 describes it as zeroing the output buffer, that is
`X[i*INCX] = ALPHA` for `i < N`. -/
def fill_cpu {α : Type} (N : Int) (ALPHA : α) (X : Buf α) (INCX : Int) : Buf α :=
  loop N (fun i X => store X (i * INCX) ALPHA) X

/-- Modelled from the spec: `axpy_cpu(N, ALPHA, X, INCX, Y, INCY)` lives in the BLAS
file outside the given source; §4.5 describes it as `param += coeff * update_buffer`,
that is `Y[i*INCY] += ALPHA*X[i*INCX]` for `i < N`. -/
def axpy_cpu {α : Type} [Add α] [Mul α] (N : Int) (ALPHA : α) (X : Buf α) (INCX : Int)
    (Y : Buf α) (INCY : Int) : Buf α :=
  loop N (fun i Y => store Y (i * INCY) (Y (i * INCY) + ALPHA * X (i * INCX))) Y

/-- Modelled from the spec: `scal_cpu(N, ALPHA, X, INCX)` lives in the BLAS file
outside the given source; §4.5 describes it as `update_buffer *= momentum`, that is
`X[i*INCX] *= ALPHA` for `i < N`. -/
def scal_cpu {α : Type} [Mul α] (N : Int) (ALPHA : α) (X : Buf α) (INCX : Int) : Buf α :=
  loop N (fun i X => store X (i * INCX) (X (i * INCX) * ALPHA)) X

/-- Modelled from the spec: `activate_array(x, n, a)` belongs to the activation
collaborator (§6): elementwise forward, `x[i] = activate(x[i], a)` for `i < n`. -/
def activate_array {α : Type} (x : Buf α) (n : Int) (a : ACTIVATION α) : Buf α :=
  loop n (fun i x => store x i (a.activate (x i))) x

/-- Modelled from the spec: `gradient_array(x, n, a, delta)` belongs to the activation
collaborator (§6): elementwise backward, multiplying `delta` in place by the local
derivative, `delta[i] *= gradient(x[i], a)` for `i < n`. -/
def gradient_array {α : Type} [Mul α] (x : Buf α) (n : Int) (a : ACTIVATION α)
    (delta : Buf α) : Buf α :=
  loop n (fun i delta => store delta i (delta i * a.gradient (x i))) delta

/-- Modelled from the spec: the inner product `sum_k opA[i][k]*opB[k][j]` of the
external matrix multiply (§6), where `opA` is `A` (leading dimension `lda`) or its
transpose when `TA` is set, and likewise `opB`. -/
def gemm_dot {α : Type} [CommRing α] (TA TB : Int) (K : Int) (A : Buf α) (lda : Int)
    (B : Buf α) (ldb : Int) (i j : Int) : α :=
  loop K (fun k acc =>
    acc + (if TA ≠ 0 then A (k * lda + i) else A (i * lda + k))
          * (if TB ≠ 0 then B (j * ldb + k) else B (k * ldb + j))) 0

/-- Modelled from the spec: `gemm(TA, TB, M, N, K, ALPHA, A, lda, B, ldb, BETA, C, ldc)`
is the external matrix multiply (§6): standard dense GEMM with optional transpose
flags and accumulate-into-C via `BETA`,
`C[i*ldc+j] = BETA*C[i*ldc+j] + ALPHA * sum_k opA[i][k]*opB[k][j]`.  The written
pointer `C` is given as a buffer and an offset into it. -/
def gemm {α : Type} [CommRing α] (TA TB : Int) (M N K : Int) (ALPHA : α) (A : Buf α)
    (lda : Int) (B : Buf α) (ldb : Int) (BETA : α) (C : Buf α) (coff : Int) (ldc : Int) :
    Buf α :=
  loop M (fun i C => loop N (fun j C =>
    store C (coff + (i * ldc + j))
      (BETA * C (coff + (i * ldc + j)) + ALPHA * gemm_dot TA TB K A lda B ldb i j)) C) C

/-! ## Unfold and fold -/

/-- Modelled from the spec: the value that unfold (§4.1) samples for channel `ch`,
kernel tap `(ki, kj)` and output position `(out_row, out_col)` of a feature map
`[channels, h, w]`: the input at `row = out_row*stride - pad + ki*dilate_rate`,
`col = out_col*stride - pad + kj*dilate_rate`, or `0` outside `[0,h) x [0,w)`. -/
def unfold_tap {α : Type} [Zero α] (im : Buf α) (h w stride pad dilate_rate : Int)
    (ch ki kj out_row out_col : Int) : α :=
  let row := out_row * stride - pad + ki * dilate_rate
  let col := out_col * stride - pad + kj * dilate_rate
  if 0 ≤ row ∧ row < h ∧ 0 ≤ col ∧ col < w then im ((ch * h + row) * w + col) else 0

/-- Modelled from the spec: the index in the feature map `[channels, h, w]` that
entry `[t][q]` of the unfold matrix refers to, if it lies inside the map; row `t`
is the flattened `(ch, ki, kj)` and column `q` the flattened `(out_row, out_col)`. -/
def unfold_source (h w size stride pad dilate_rate out_w : Int) (t q : Int) : Option Int :=
  let ch := t / (size * size)
  let ki := t / size % size
  let kj := t % size
  let out_row := q / out_w
  let out_col := q % out_w
  let row := out_row * stride - pad + ki * dilate_rate
  let col := out_col * stride - pad + kj * dilate_rate
  if 0 ≤ row ∧ row < h ∧ 0 ≤ col ∧ col < w then some ((ch * h + row) * w + col) else none

/-- Modelled from the spec: entry `[t][q]` of the unfold matrix (§4.1) of a feature map
`[channels, h, w]`, where row `t = (ch*size + ki)*size + kj` is the flattened kernel
tap and column `q = out_row*out_w + out_col` the flattened output position. -/
def unfold_entry {α : Type} [Zero α] (im : Buf α) (h w size stride pad dilate_rate : Int)
    (out_w : Int) (t q : Int) : α :=
  unfold_tap im h w stride pad dilate_rate
    (t / (size * size)) (t / size % size) (t % size) (q / out_w) (q % out_w)

/-- Modelled from the spec: `im2col_dilated_cpu(data_im, channels, height, width, ksize,
stride, pad, data_col, dilate_rate)` is the unfold transform of §4.1, defined outside
the given source.  It fills the matrix `[channels*ksize*ksize, out_h*out_w]`, row major,
with entry `[(ch*ksize + ki)*ksize + kj][out_row*out_w + out_col]` the sampled tap. -/
def im2col_dilated_cpu {α : Type} [Zero α] (data_im : Buf α)
    (channels height width ksize stride pad : Int) (data_col : Buf α) (dilate_rate : Int) :
    Buf α :=
  let dsize := (dilate_rate - 1) * (ksize + 1) + ksize
  let height_col := (height + 2 * pad - dsize).tdiv stride + 1
  let width_col := (width + 2 * pad - dsize).tdiv stride + 1
  let channels_col := channels * ksize * ksize
  loop channels_col (fun t col => loop (height_col * width_col) (fun q col =>
    store col (t * (height_col * width_col) + q)
      (unfold_entry data_im height width ksize stride pad dilate_rate width_col t q))
    col) data_col

/-- Modelled from the spec: `col2im_dilated_cpu(data_col, channels, height, width, ksize,
stride, pad, dilate_rate, data_im)` is the fold transform of §4.1, defined outside the
given source.  Every entry of the matrix is added to the input position given by the
index mapping of unfold; entries that map outside the input are discarded.  The
written pointer `data_im` is given as a buffer and an offset into it. -/
def col2im_dilated_cpu {α : Type} [Add α] (data_col : Buf α)
    (channels height width ksize stride pad dilate_rate : Int) (data_im : Buf α)
    (imoff : Int) : Buf α :=
  let dsize := (dilate_rate - 1) * (ksize + 1) + ksize
  let height_col := (height + 2 * pad - dsize).tdiv stride + 1
  let width_col := (width + 2 * pad - dsize).tdiv stride + 1
  let channels_col := channels * ksize * ksize
  loop channels_col (fun t im => loop (height_col * width_col) (fun q im =>
    match unfold_source height width ksize stride pad dilate_rate width_col t q with
    | some pos =>
      store im (imoff + pos) (im (imoff + pos) + data_col (t * (height_col * width_col) + q))
    | none => im) im) data_im

/-! ## Bias helpers (lines 338-369) -/

/-- The routine `add_bias_dilated`. -/
def add_bias_dilated {α : Type} [Add α] (output biases : Buf α) (batch n size : Int) :
    Buf α :=
  loop batch (fun b output => loop n (fun i output => loop size (fun j output =>
    store output ((b * n + i) * size + j) (output ((b * n + i) * size + j) + biases i))
    output) output) output

/-- Modelled from the spec: `add_bias(output, biases, batch, n, size)`, which the
forward pass calls at line 408, is a utility outside the given source; it adds
`biases` broadcast per output channel across all `size` spatial positions of each of
the `batch * n` channels (§4.3), which is the loop nest that `add_bias_dilated` writes
out. -/
def add_bias {α : Type} [Add α] (output biases : Buf α) (batch n size : Int) : Buf α :=
  loop batch (fun b output => loop n (fun i output => loop size (fun j output =>
    store output ((b * n + i) * size + j) (output ((b * n + i) * size + j) + biases i))
    output) output) output

/-- The routine `scale_bias_dilated`. -/
def scale_bias_dilated {α : Type} [Mul α] (output scales : Buf α) (batch n size : Int) :
    Buf α :=
  loop batch (fun b output => loop n (fun i output => loop size (fun j output =>
    store output ((b * n + i) * size + j) (output ((b * n + i) * size + j) * scales i))
    output) output) output

/-- Modelled from the spec: `sum_array(a, n)` is a utility outside the given source;
it returns the sum of `a[0..n)`, as §4.4 uses it to sum `delta` over the spatial
positions of one channel. -/
def sum_array {α : Type} [Zero α] [Add α] (a : Buf α) (n : Int) : α :=
  loop n (fun i sum => sum + a i) 0

/-- The routine `backward_bias_dilated`. -/
def backward_bias_dilated {α : Type} [Zero α] [Add α] (bias_updates delta : Buf α)
    (batch n size : Int) : Buf α :=
  loop batch (fun b bias_updates => loop n (fun i bias_updates =>
    store bias_updates i
      (bias_updates i + sum_array (shift delta (size * (i + b * n))) size))
    bias_updates) bias_updates

/-- Modelled from the spec: `backward_bias(bias_updates, delta, batch, n, size)`, which
the backward pass calls at line 428, is a utility outside the given source; it
accumulates the per-channel bias gradient by summing `delta` over all `size` spatial
positions per channel, per batch element, into `bias_updates` (§4.3), which is the loop
nest that `backward_bias_dilated` writes out. -/
def backward_bias {α : Type} [Zero α] [Add α] (bias_updates delta : Buf α)
    (batch n size : Int) : Buf α :=
  loop batch (fun b bias_updates => loop n (fun i bias_updates =>
    store bias_updates i
      (bias_updates i + sum_array (shift delta (size * (i + b * n))) size))
    bias_updates) bias_updates

/-! ## External collaborators -/

/-- The collaborators of the layer that are specified at their interface only (§1, §6):
batch normalization and binarization.  Each receives the buffers it may touch and
returns their contents after the call. -/
structure Collaborators (α : Type) where
  /-- The call `forward_batchnorm_layer(l, net)`. -/
  forward_batchnorm_layer : Layer α → Network α → Layer α
  /-- The call `backward_batchnorm_layer(l, net)`. -/
  backward_batchnorm_layer : Layer α → Network α → Layer α
  /-- The call `binarize_weights(weights, n, size, binary)`: the new contents of `binary`. -/
  binarize_weights : Buf α → Int → Int → Buf α → Buf α
  /-- The call `binarize_cpu(input, n, binary)`: the new contents of `binary`. -/
  binarize_cpu : Buf α → Int → Buf α → Buf α

/-- Modelled from the spec: `swap_binary(&l)` is defined outside the given source;
per §4.2 and §9 it exchanges the `weights` and `binary_weights` pointers of the record
it is given. -/
def swap_binary {α : Type} (l : Layer α) : Layer α :=
  { l with weights := l.binary_weights, binary_weights := l.weights }

/-! ## Forward pass (lines 372-413) -/

/-- The state threaded through the group loop of the forward pass: the contents of
`l.output` and of `net.workspace`. -/
structure ForwardState (α : Type) where
  /-- Contents of `l.output`. -/
  output : Buf α
  /-- Contents of `net.workspace`. -/
  workspace : Buf α

/-- The offset `j*l.nweights/l.groups` of the weight slice of group `j`. -/
def weight_offset {α : Type} (l : Layer α) (j : Int) : Int :=
  (j * l.nweights).tdiv l.groups

/-- The offset `(i*l.groups + j)*n*m` of the output slice of batch element `i` and
group `j`, with `n = l.out_w*l.out_h` and `m = l.n/l.groups`; the backward pass forms
the same product as `(i*l.groups + j)*m*k` with `k = l.out_w*l.out_h` for the delta
slice. -/
def output_offset {α : Type} (l : Layer α) (i j : Int) : Int :=
  (i * l.groups + j) * (l.out_w * l.out_h) * l.n.tdiv l.groups

/-- The offset `(i*l.groups + j)*l.c/l.groups*l.h*l.w` of the input slice of batch
element `i` and group `j`. -/
def input_offset {α : Type} (l : Layer α) (i j : Int) : Int :=
  ((i * l.groups + j) * l.c).tdiv l.groups * l.h * l.w

/-- The matrix `b` that iteration `(i, j)` of the forward group loop hands to `gemm`
(lines 392-400): the input slice itself when `size == 1`, else the workspace after
`im2col_dilated_cpu`. -/
def forward_gemm_b {α : Type} [Zero α] (l : Layer α) (net : Network α) (i j : Int)
    (workspace : Buf α) : Buf α :=
  let im := shift net.input (input_offset l i j)
  if l.size = 1 then im
  else im2col_dilated_cpu im (l.c.tdiv l.groups) l.h l.w l.size l.stride l.pad
    workspace l.dilate_rate

/-- One iteration of the group loop of `forward_dilated_conv_layer` (lines 391-401),
for batch element `i` and group `j`. -/
def forward_group_step {α : Type} [CommRing α] (l : Layer α) (net : Network α)
    (i j : Int) (s : ForwardState α) : ForwardState α :=
  let m := l.n.tdiv l.groups
  let k := (l.size * l.size * l.c).tdiv l.groups
  let n := l.out_w * l.out_h
  let a := shift l.weights (weight_offset l j)
  let b := forward_gemm_b l net i j s.workspace
  { output := gemm 0 0 m n k 1 a k b n 1 s.output (output_offset l i j) n,
    workspace := if l.size = 1 then s.workspace else b }

/-- The body of `forward_dilated_conv_layer` acting on its by-value parameters `l` and
`net`: the values of these two local records when the function returns. -/
def forward_dilated_conv_layer_locals {α : Type} [CommRing α] (E : Collaborators α)
    (l : Layer α) (net : Network α) : Layer α × Network α :=
  let l : Layer α := { l with output := fill_cpu (l.outputs * l.batch) 0 l.output 1 }
  let ln : Layer α × Network α :=
    if l.xnor ≠ 0 then
      let bw := E.binarize_weights l.weights l.n (l.c.tdiv l.groups * l.size * l.size)
        l.binary_weights
      let l : Layer α := { l with binary_weights := bw }
      let l : Layer α := swap_binary l
      let bi := E.binarize_cpu net.input (l.c * l.h * l.w * l.batch) l.binary_input
      let l : Layer α := { l with binary_input := bi }
      (l, { net with input := l.binary_input })
    else (l, net)
  let l : Layer α := ln.1
  let net : Network α := ln.2
  let s := loop l.batch (fun i s => loop l.groups (fun j s => forward_group_step l net i j s) s)
    { output := l.output, workspace := net.workspace }
  let l : Layer α := { l with output := s.output }
  let net : Network α := { net with workspace := s.workspace }
  let l : Layer α :=
    if l.batch_normalize ≠ 0 then E.forward_batchnorm_layer l net
    else { l with output := add_bias l.output l.biases l.batch l.n (l.out_h * l.out_w) }
  let l : Layer α :=
    { l with output := activate_array l.output (l.outputs * l.batch) l.activation }
  let l : Layer α := if l.binary ≠ 0 ∨ l.xnor ≠ 0 then swap_binary l else l
  (l, net)

/-- The routine `forward_dilated_conv_layer` as observed by the caller.  The layer and
the network are passed by value, so the pointer exchanges of `swap_binary` and the redirection of
`net.input` are lost on return; the buffer contents written through the pointers
remain.  The local record has exchanged `weights` and `binary_weights` once more than
the caller's exactly when `binary` is set and `xnor` is not. -/
def forward_dilated_conv_layer {α : Type} [CommRing α] (E : Collaborators α)
    (l : Layer α) (net : Network α) : Layer α × Network α :=
  let r := forward_dilated_conv_layer_locals E l net
  let l' := if l.binary ≠ 0 ∧ ¬ l.xnor ≠ 0 then swap_binary r.1 else r.1
  (l', { net with workspace := r.2.workspace })

/-! ## Backward pass (lines 416-481) -/

/-- The state threaded through the group loop of the backward pass: the contents of
`l.weight_updates`, of `net.workspace` and of `net.delta` (when present). -/
structure BackwardState (α : Type) where
  /-- Contents of `l.weight_updates`. -/
  weight_updates : Buf α
  /-- Contents of `net.workspace`. -/
  workspace : Buf α
  /-- Contents of `net.delta`; `none` is the NULL pointer. -/
  delta : Option (Buf α)

/-- One iteration of the group loop of `backward_dilated_conv_layer` (lines 433-478),
for batch element `i` and group `j`. -/
def backward_group_step {α : Type} [CommRing α] (l : Layer α) (net : Network α)
    (i j : Int) (s : BackwardState α) : BackwardState α :=
  let m := l.n.tdiv l.groups
  let n := (l.size * l.size * l.c).tdiv l.groups
  let k := l.out_w * l.out_h
  let a := shift l.delta (output_offset l i j)
  let b := forward_gemm_b l net i j s.workspace
  let workspace := if l.size = 1 then s.workspace else b
  let weight_updates := gemm 0 1 m n k 1 a k b k 1 s.weight_updates (weight_offset l j) n
  match s.delta with
  | none => { weight_updates := weight_updates, workspace := workspace, delta := none }
  | some net_delta =>
    let imd := input_offset l i j
    let a := shift l.weights (weight_offset l j)
    let b := shift l.delta (output_offset l i j)
    let workspace :=
      if l.size = 1 then workspace else gemm 1 0 n k m 1 a n b k 0 workspace 0 k
    let net_delta :=
      if l.size = 1 then gemm 1 0 n k m 1 a n b k 0 net_delta imd k else net_delta
    let net_delta :=
      if l.size ≠ 1 then
        col2im_dilated_cpu workspace (l.c.tdiv l.groups) l.h l.w l.size l.stride l.pad
          l.dilate_rate net_delta imd
      else net_delta
    { weight_updates := weight_updates, workspace := workspace, delta := some net_delta }

/-- The routine `backward_dilated_conv_layer` as observed by the caller: the layer and
the network with the buffer contents after the call. -/
def backward_dilated_conv_layer {α : Type} [CommRing α] (E : Collaborators α)
    (l : Layer α) (net : Network α) : Layer α × Network α :=
  let k := l.out_w * l.out_h
  let l : Layer α :=
    { l with delta := gradient_array l.output (l.outputs * l.batch) l.activation l.delta }
  let l : Layer α :=
    if l.batch_normalize ≠ 0 then E.backward_batchnorm_layer l net
    else { l with bias_updates := backward_bias l.bias_updates l.delta l.batch l.n k }
  let s := loop l.batch (fun i s => loop l.groups (fun j s => backward_group_step l net i j s) s)
    { weight_updates := l.weight_updates, workspace := net.workspace, delta := net.delta }
  ({ l with weight_updates := s.weight_updates },
   { net with workspace := s.workspace, delta := s.delta })

/-! ## Parameter update (lines 483-501) -/

/-- The scales step of `update_dilated_conv_layer` (lines 493-496): the contents of
`scales` and `scale_updates` after it, or `none` when `axpy_cpu` reads through the NULL
pointer `scale_updates` (the program dies at line 494).  With `l.n <= 0` the loop of
`axpy_cpu` does not run and nothing is read. -/
def update_scales_step {α : Type} [Field α] (l : Layer α) (rate momentum : α) :
    Option (Option (Buf α) × Option (Buf α)) :=
  match l.scales with
  | none => some (none, l.scale_updates)
  | some scales =>
    match l.scale_updates with
    | some scale_updates =>
      some (some (axpy_cpu l.n rate scale_updates 1 scales 1),
        some (scal_cpu l.n momentum scale_updates 1))
    | none => if 0 < l.n then none else some (some scales, none)

/-- The routine `update_dilated_conv_layer`: the layer as the caller sees it after the
call, or `none` when the call does not return because it reads through a NULL
pointer. -/
def update_dilated_conv_layer {α : Type} [Field α] (l : Layer α) (a : update_args α) :
    Option (Layer α) :=
  let learning_rate := a.learning_rate * l.learning_rate_scale
  let momentum := a.momentum
  let decay := a.decay
  let batch := a.batch
  let biases := axpy_cpu l.n (learning_rate / (batch : α)) l.bias_updates 1 l.biases 1
  let bias_updates := scal_cpu l.n momentum l.bias_updates 1
  (update_scales_step l (learning_rate / (batch : α)) momentum).map (fun scale_pair =>
    let weight_updates :=
      axpy_cpu l.nweights (-decay * (batch : α)) l.weights 1 l.weight_updates 1
    let weights :=
      axpy_cpu l.nweights (learning_rate / (batch : α)) weight_updates 1 l.weights 1
    let weight_updates := scal_cpu l.nweights momentum weight_updates 1
    { l with
      biases := biases, bias_updates := bias_updates, scales := scale_pair.1,
      scale_updates := scale_pair.2, weights := weights, weight_updates := weight_updates })

/-! ## Construction (lines 129-279, CPU path) -/

/-- The zero-initialised record `dilated_convolutional_layer l = {0};`.  A NULL
`float*` other than `scales` and `scale_updates` is represented by the all-zero
buffer. -/
def Layer.zero {α : Type} [Zero α] : Layer α :=
  { dilate_rate := 0, groups := 0, h := 0, w := 0, c := 0, n := 0, binary := 0, xnor := 0,
    batch := 0, stride := 0, size := 0, pad := 0, batch_normalize := 0,
    weights := fun _ => 0, weight_updates := fun _ => 0, biases := fun _ => 0,
    bias_updates := fun _ => 0, nweights := 0, nbiases := 0, out_h := 0, out_w := 0,
    out_c := 0, outputs := 0, inputs := 0, output := fun _ => 0, delta := fun _ => 0,
    binary_weights := fun _ => 0, binary_input := fun _ => 0, scales := none,
    scale_updates := none, workspace_size := 0,
    activation := { activate := fun x => x, gradient := fun _ => 0 },
    learning_rate_scale := 0, output_bytes := 0, delta_bytes := 0 }

/-- The routine `make_dilated_conv_layer`.  `init i` is the value `scale*rand_normal()`
stored into `weights[i]`; `calloc(nmemb, sizeof(float))` yields the all-zero buffer and
is recorded for `output` and `delta` as a request of `nmemb * 4` bytes, `nmemb`
converted to `size_t`.  The products `c/groups*n*size*size`, `out_h*out_w*out_c`,
`w*h*c` and `batch*outputs` are formed in `int`, left to right.  The buffers owned by the
normalization collaborator and by the Adam variant are only allocated here and are
left out. -/
def make_dilated_conv_layer {α : Type} [Zero α] [One α] (init : Buf α)
    (batch h w c n groups size stride padding : Int) (activation : ACTIVATION α)
    (batch_normalize binary xnor adam dilate_rate : Int) : Layer α :=
  let _ := adam
  let l : Layer α := Layer.zero
  let l := { l with dilate_rate := dilate_rate, groups := groups, h := h, w := w, c := c,
                    n := n, binary := binary, xnor := xnor, batch := batch,
                    stride := stride, size := size, pad := padding,
                    batch_normalize := batch_normalize }
  let l := { l with weights := fun _ => 0, weight_updates := fun _ => 0,
                    biases := fun _ => 0, bias_updates := fun _ => 0 }
  let l := { l with nweights := to_int (to_int (to_int (c.tdiv groups * n) * size) * size),
                    nbiases := n }
  let l := { l with weights := loop l.nweights (fun i W => store W i (init i)) l.weights }
  let out_w := dilated_conv_out_width l
  let out_h := dilated_conv_out_height l
  let l := { l with out_h := out_h, out_w := out_w, out_c := n }
  let l := { l with outputs := to_int (to_int (l.out_h * l.out_w) * l.out_c),
                    inputs := to_int (to_int (l.w * l.h) * l.c) }
  let l := { l with output := fun _ => 0, delta := fun _ => 0,
                    output_bytes := to_size_t (to_int (l.batch * l.outputs)) * 4,
                    delta_bytes := to_size_t (to_int (l.batch * l.outputs)) * 4 }
  let l := if binary ≠ 0 then
      { l with binary_weights := fun _ => 0, scales := some (fun _ => 0) } else l
  let l := if xnor ≠ 0 then
      { l with binary_weights := fun _ => 0, binary_input := fun _ => 0 } else l
  let l := if batch_normalize ≠ 0 then
      { l with scales := some (loop n (fun i S => store S i 1) (fun _ => 0)),
               scale_updates := some (fun _ => 0) } else l
  let l := { l with workspace_size := get_workspace_size l }
  { l with activation := activation }

/-! ## Resize (lines 297-336, CPU path) -/

/-- The routine `resize_dilated_conv_layer`: the layer `*l` after the call.
`realloc(p, l->batch*l->outputs*sizeof(float))` keeps the contents of `p` and is
recorded as a request of that many bytes: `l->batch*l->outputs` is formed in `int`,
converted to `size_t` and multiplied by 4 in `size_t`.  The products
`out_h*out_w*out_c` and `w*h*c` are formed in `int`, left to right.  The buffers `x` and
`x_norm` of the normalization collaborator are left out, as in
`make_dilated_conv_layer`. -/
def resize_dilated_conv_layer {α : Type} (l : Layer α) (w h : Int) : Layer α :=
  let l : Layer α := { l with w := w }
  let l : Layer α := { l with h := h }
  let out_w := dilated_conv_out_width l
  let out_h := dilated_conv_out_height l
  let l : Layer α := { l with out_w := out_w }
  let l : Layer α := { l with out_h := out_h }
  let l : Layer α := { l with outputs := to_int (to_int (l.out_h * l.out_w) * l.out_c) }
  let l : Layer α := { l with inputs := to_int (to_int (l.w * l.h) * l.c) }
  let l : Layer α :=
    { l with output_bytes := to_size_t (to_size_t (to_int (l.batch * l.outputs)) * 4) }
  let l : Layer α :=
    { l with delta_bytes := to_size_t (to_size_t (to_int (l.batch * l.outputs)) * 4) }
  { l with workspace_size := get_workspace_size l }

/-! ## Concrete layers used as test inputs -/

/-- The linear activation: identity, derivative one. -/
def linear_activation {α : Type} [One α] : ACTIVATION α :=
  { activate := fun x => x, gradient := fun _ => 1 }

/-- The layer built by `test_new_dconv_forward_cpu` (lines 586-628): a 9x9x1 input,
one 3x3 filter, stride 2, no padding, dilation 2, all-ones weights. -/
def test_new_dconv_layer : Layer ℤ :=
  let l := make_dilated_conv_layer (fun _ => 0) 1 9 9 1 1 1 3 2 0 linear_activation 0 0 0 0 2
  { l with weights := loop 9 (fun i W => store W i 1) (fun _ => 0), output := fun _ => 0 }

/-- A freshly made 1x1x1 layer with one 1x1 filter whose gradient accumulators hold
`bias_updates[0] = 1` and `weight_updates[0] = 3`, with `weights[0] = 2`. -/
def update_test_layer : Layer ℚ :=
  let l := make_dilated_conv_layer (fun _ => 2) 1 1 1 1 1 1 1 1 0 linear_activation 0 0 0 0 1
  { l with bias_updates := fun _ => 1, weight_updates := fun _ => 3 }

/-- The same layer after the configuration parser has set `learning_rate_scale = 1`
and with per-channel scales and their gradient accumulator present
(`scales[i] = 1`, `scale_updates[i] = 5`). -/
def update_test_layer_scaled : Layer ℚ :=
  { update_test_layer with
    learning_rate_scale := 1, scales := some (fun _ => 1),
    scale_updates := some (fun _ => 5) }

/-- A layer fresh from `make_dilated_conv_layer` with `binary = 1` and
`batch_normalize = 0`: a 1x1x1 input and one 1x1 filter.  Its `scales` is allocated
(line 178), its `scale_updates` is NULL. -/
def binary_only_layer : Layer ℚ :=
  make_dilated_conv_layer (fun _ => 2) 1 1 1 1 1 1 1 1 0 linear_activation 0 1 0 0 1

/-- Update arguments: rate 1, momentum 1/2, decay 1, batch 1. -/
def update_test_args : update_args ℚ :=
  { learning_rate := 1, momentum := 1 / 2, decay := 1, batch := 1 }

/-- Update arguments with a zero learning rate: momentum 1/2, decay 1, batch 1. -/
def update_test_args_zero_rate : update_args ℚ :=
  { learning_rate := 0, momentum := 1 / 2, decay := 1, batch := 1 }

/-- A grouped layer: batch 2, a 3x3x2 input, four 3x3 filters in two groups, stride 1,
padding 1, no dilation, weights `weights[i] = i + 1`. -/
def grouped_test_layer : Layer ℤ :=
  make_dilated_conv_layer (fun i => i + 1) 2 3 3 2 4 2 3 1 1 linear_activation 0 0 0 0 1

/-- Collaborators that leave every buffer as it is. -/
def idle_collaborators {α : Type} : Collaborators α :=
  { forward_batchnorm_layer := fun l _ => l, backward_batchnorm_layer := fun l _ => l,
    binarize_weights := fun _ _ _ binary => binary, binarize_cpu := fun _ _ binary => binary }

/-- A 1x1-kernel layer with stride 2: batch 1, a 3x3x1 input, one filter with weight 1,
no padding, no dilation; its output is 2x2. -/
def bypass_test_layer : Layer ℤ :=
  make_dilated_conv_layer (fun _ => 1) 1 3 3 1 1 1 1 2 0 linear_activation 0 0 0 0 1

/-- The input `1, 2, ..., 9` in row-major order, no gradient buffer, zeroed workspace. -/
def bypass_test_net : Network ℤ :=
  { input := fun p => if 0 ≤ p ∧ p < 9 then p + 1 else 0, delta := none,
    workspace := fun _ => 0 }

/-- A 1x1-kernel layer on a 1x1x1 input with weight 2, stride 1, whose incoming
gradient is `delta[0] = 3`. -/
def pointwise_backward_layer : Layer ℤ :=
  let l := make_dilated_conv_layer (fun _ => 2) 1 1 1 1 1 1 1 1 0 linear_activation 0 0 0 0 1
  { l with delta := fun p => if p = 0 then 3 else 0 }

/-- A 3x3-kernel layer on a 3x3x1 input with all-ones weights, stride 1, no padding,
whose incoming gradient is `delta[0] = 3`. -/
def kernel3_backward_layer : Layer ℤ :=
  let l := make_dilated_conv_layer (fun _ => 1) 1 3 3 1 1 1 3 1 0 linear_activation 0 0 0 0 1
  { l with delta := fun p => if p = 0 then 3 else 0 }

/-- A network whose gradient buffer `net.delta` already holds 5 in every element. -/
def accumulated_delta_net : Network ℤ :=
  { input := fun _ => 1, delta := some (fun _ => 5), workspace := fun _ => 0 }

/-- A layer made with `binary = 1`, `xnor = 0`: a 1x1x2 input, one 1x1 filter with
weights `5, -3`. -/
def binary_test_layer : Layer ℤ :=
  make_dilated_conv_layer (fun i => if i = 0 then 5 else -3) 1 1 1 2 1 1 1 1 0
    linear_activation 0 1 0 0 1

/-- The input `1, 0`. -/
def binary_test_net : Network ℤ :=
  { input := fun p => if p = 0 then 1 else 0, delta := none, workspace := fun _ => 0 }

/-- A binarization collaborator standing for sign quantization with the mean
magnitude: on the weights `5, -3` it produces `4, -4`. -/
def sign_collaborators : Collaborators ℤ :=
  { idle_collaborators with
    binarize_weights := fun _ _ _ _ => fun i => if i = 0 then 4 else if i = 1 then -4 else 0 }

/-- An input with `input[p] = p + 1`, no gradient buffer, zeroed workspace. -/
def ramp_net : Network ℤ :=
  { input := fun p => p + 1, delta := none, workspace := fun _ => 0 }

/-- The value that C10 states for element `[r][q]` of the output slice of batch element
`i` and group `j`: the activation of the sum over the taps `t < size*size*c/groups` of
`weight_slice_j[r][t] * B_ij[t][q]`, plus `biases[j*(n/groups) + r]`, with `B_ij` the
unfold matrix of the input slice of `(i, j)`. -/
def stated_output {α : Type} [CommRing α] (l : Layer α) (net : Network α) (i j r q : Int) : α :=
  l.activation.activate
    ((∑ t in Finset.range ((l.size * l.size * l.c).tdiv l.groups).toNat,
        l.weights (weight_offset l j
            + (r * (l.size * l.size * l.c).tdiv l.groups + (t : Int)))
          * unfold_entry (shift net.input (input_offset l i j)) l.h l.w l.size l.stride
              l.pad l.dilate_rate l.out_w (t : Int) q)
      + l.biases (j * l.n.tdiv l.groups + r))

/-- A layer with three channels in two groups and consistent derived fields: batch 1, a
5x5x3 input, two 3x3 filters, stride 1, no padding, no dilation; its output is 3x3. -/
def odd_channels_layer : Layer ℤ :=
  make_dilated_conv_layer (fun _ => 1) 1 5 5 3 2 2 3 1 0 linear_activation 0 0 0 0 1

/-- A freshly made layer to be resized: batch 1, a 5x5x1 input, one 3x3 filter, stride 1,
no padding, no dilation. -/
def resize_source_layer : Layer ℤ :=
  make_dilated_conv_layer (fun _ => 1) 1 5 5 1 1 1 3 1 0 linear_activation 0 0 0 0 1

/-- The contents of `l.delta` after the activation-derivative step of the backward pass
(line 423). -/
def activation_gradient {α : Type} [Mul α] (l : Layer α) : Buf α :=
  gradient_array l.output (l.outputs * l.batch) l.activation l.delta

/-- The value that C11 states for the sum added to entry `[r][t]` of the weight-gradient
slice of group `j`: the sum over the batch elements `i < batch` of entry `[r][t]` of
`delta_slice_ij x B_ij^T`, that is the sum over the output positions `q < out_h*out_w`
of `delta_slice_ij[r][q] * B_ij[t][q]`, with `delta_slice_ij` the gradient slice after
the activation-derivative step and `B_ij` the unfold matrix of the input slice. -/
def stated_weight_gradient {α : Type} [CommRing α] (l : Layer α) (net : Network α)
    (j r t : Int) : α :=
  ∑ i in Finset.range l.batch.toNat, ∑ q in Finset.range (l.out_h * l.out_w).toNat,
    activation_gradient l (output_offset l (i : Int) j + (r * (l.out_h * l.out_w) + (q : Int)))
      * unfold_entry (shift net.input (input_offset l (i : Int) j)) l.h l.w l.size l.stride
          l.pad l.dilate_rate l.out_w t (q : Int)

/-- A pointwise grouped layer with a gradient to propagate: batch 2, a 2x2x4 input, four
1x1 filters in two groups, stride 1, no padding, no dilation, `weights[i] = i + 1`,
incoming gradient `delta[p] = p + 1`, and `weight_updates[0] = 1000` accumulated
before the call. -/
def pointwise_gradient_layer : Layer ℤ :=
  { make_dilated_conv_layer (fun i => i + 1) 2 2 2 4 4 2 1 1 0 linear_activation 0 0 0 0 1 with
    delta := fun p => p + 1, weight_updates := fun p => if p = 0 then 1000 else 0 }

/-- The grouped 3x3-kernel layer with incoming gradient `delta[p] = p + 1` and
`weight_updates[p] = 100` accumulated before the call. -/
def grouped_gradient_layer : Layer ℤ :=
  { grouped_test_layer with delta := fun p => p + 1, weight_updates := fun _ => 100 }

/-- The 1x1-kernel, stride-2 layer with an incoming gradient of 1 at every output
position. -/
def bypass_backward_layer : Layer ℤ :=
  { bypass_test_layer with delta := fun _ => 1 }

/-! ## Loop lemmas -/

theorem loop_of_nonpos {σ : Type} (n : Int) (hn : n ≤ 0) (body : Int → σ → σ) (s : σ) :
    loop n body s = s := by
  have : n.toNat = 0 := Int.toNat_eq_zero.mpr hn
  simp [loop, this]

theorem loop_natCast_succ {σ : Type} (k : Nat) (body : Int → σ → σ) (s : σ) :
    loop ((k : Int) + 1) body s = body k (loop k body s) := by
  have h1 : ((k : Int) + 1).toNat = k + 1 := by omega
  simp [loop, h1, List.range_succ, List.foldl_append]

/-- Invariant rule for loops. -/
theorem loop_invariant {σ : Type} (P : σ → Prop) (n : Int) (body : Int → σ → σ) (s : σ)
    (h0 : P s) (hstep : ∀ i, 0 ≤ i → i < n → ∀ s, P s → P (body i s)) :
    P (loop n body s) := by
  rcases le_or_lt n 0 with hn | hn
  · rw [loop_of_nonpos n hn]
    exact h0
  · obtain ⟨k, rfl⟩ : ∃ k : Nat, n = k := ⟨n.toNat, by omega⟩
    clear hn
    induction k with
    | zero => simpa [loop] using h0
    | succ k ih =>
      have := loop_natCast_succ k body s
      simp only [Nat.cast_succ] at *
      rw [this]
      exact hstep k (by omega) (by omega) _ (ih (fun i hi0 hi1 => hstep i hi0 (by omega)))

/-- Relational rule for two loops of the same length. -/
theorem loop_relation {σ τ : Type} (R : σ → τ → Prop) (n : Int) (body : Int → σ → σ)
    (body' : Int → τ → τ) (s : σ) (s' : τ) (h0 : R s s')
    (hstep : ∀ i, 0 ≤ i → i < n → ∀ s s', R s s' → R (body i s) (body' i s')) :
    R (loop n body s) (loop n body' s') := by
  rcases le_or_lt n 0 with hn | hn
  · rw [loop_of_nonpos n hn, loop_of_nonpos n hn]
    exact h0
  · obtain ⟨k, rfl⟩ : ∃ k : Nat, n = k := ⟨n.toNat, by omega⟩
    clear hn
    induction k with
    | zero => simpa [loop] using h0
    | succ k ih =>
      have e1 := loop_natCast_succ k body s
      have e2 := loop_natCast_succ k body' s'
      simp only [Nat.cast_succ] at *
      rw [e1, e2]
      exact hstep k (by omega) (by omega) _ _ (ih (fun i hi0 hi1 => hstep i hi0 (by omega)))

/-- Frame rule: an observation that no iteration changes is unchanged by the loop. -/
theorem loop_frame {σ β : Type} (obs : σ → β) (n : Int) (body : Int → σ → σ) (s : σ)
    (hstep : ∀ i, 0 ≤ i → i < n → ∀ s, obs (body i s) = obs s) :
    obs (loop n body s) = obs s :=
  loop_invariant (fun t => obs t = obs s) n body s rfl
    (fun i h0 h1 t ht => (hstep i h0 h1 t).trans ht)

/-- Single-hit rule: an observation that only iteration `i0` changes has, after the
loop, the value that iteration `i0` gave it. -/
theorem loop_hit {σ β : Type} (obs : σ → β) (n : Int) (body : Int → σ → σ) (s : σ)
    (i0 : Int) (h0 : 0 ≤ i0) (h1 : i0 < n)
    (hstep : ∀ i, 0 ≤ i → i < n → i ≠ i0 → ∀ s, obs (body i s) = obs s) :
    obs (loop n body s) = obs (body i0 (loop i0 body s)) := by
  obtain ⟨k, rfl⟩ : ∃ k : Nat, n = k := ⟨n.toNat, by omega⟩
  induction k with
  | zero => exact absurd h1 (by simp; omega)
  | succ k ih =>
    have := loop_natCast_succ k body s
    simp only [Nat.cast_succ] at *
    rw [this]
    by_cases hk : i0 = (k : Int)
    · subst hk
      rfl
    · rw [hstep k (by omega) (by omega) (fun h => hk h.symm)]
      exact ih (by omega) (fun i hi0 hi1 hne => hstep i hi0 (by omega) hne)

/-- Congruence rule: loops whose bodies agree on the iterations run are equal. -/
theorem loop_congr {σ : Type} (n : Int) (body body' : Int → σ → σ) (s : σ)
    (hstep : ∀ i, 0 ≤ i → i < n → ∀ s, body i s = body' i s) :
    loop n body s = loop n body' s :=
  loop_relation (fun a b => a = b) n body body' s s rfl
    (fun i h0 h1 a b hab => by rw [hab]; exact hstep i h0 h1 b)

/-- An accumulation loop is a finite sum. -/
theorem loop_sum {α : Type} [AddCommMonoid α] (n : Int) (f : Int → α) :
    loop n (fun i acc => acc + f i) 0 = ∑ i in Finset.range n.toNat, f (i : Int) := by
  unfold loop
  generalize n.toNat = k
  induction k with
  | zero => simp
  | succ k ih => rw [List.range_succ, List.foldl_append, ih, Finset.sum_range_succ]; rfl

theorem store_same {α : Type} (C : Buf α) (i : Int) (v : α) : store C i v i = v := by
  simp [store]

theorem store_other {α : Type} (C : Buf α) (i : Int) (v : α) (p : Int) (h : p ≠ i) :
    store C i v p = C p := by
  simp [store, h]

/-! ## Index arithmetic -/

/-- A number has one representation `a*d + b` with `0 <= b < d`. -/
theorem mixed_radix_unique (d a a' b b' : Int) (hb0 : 0 ≤ b) (hb1 : b < d) (hb0' : 0 ≤ b')
    (hb1' : b' < d) (h : a * d + b = a' * d + b') : a = a' ∧ b = b' := by
  have hd : 0 < d := by omega
  have e1 := (Int.ediv_emod_unique (a := a * d + b) (r := b) (q := a) hd).mpr
    ⟨by ring, hb0, hb1⟩
  have e2 := (Int.ediv_emod_unique (a := a * d + b) (r := b') (q := a') hd).mpr
    ⟨by rw [h]; ring, hb0', hb1'⟩
  exact ⟨e1.1.symm.trans e2.1, e1.2.symm.trans e2.2⟩

/-- Consecutive blocks of length `L` tile an interval: `x` lies in `[base, base + g*L)`
exactly when it lies in one of the blocks `[base + j*L, base + j*L + L)`, `0 <= j < g`. -/
theorem block_tile (base L g x : Int) (hg : 0 ≤ g) :
    (base ≤ x ∧ x < base + g * L) ↔
      ∃ j, 0 ≤ j ∧ j < g ∧ base + j * L ≤ x ∧ x < base + j * L + L := by
  constructor
  · rintro ⟨h0, h1⟩
    have hL : 0 < L ∨ L ≤ 0 := by omega
    rcases hL with hL | hL
    · refine ⟨(x - base) / L, Int.ediv_nonneg (by omega) (by omega), ?_, ?_, ?_⟩
      · apply Int.ediv_lt_of_lt_mul hL
        linarith
      · have := Int.ediv_mul_le (x - base) (ne_of_gt hL)
        linarith
      · have := Int.lt_ediv_add_one_mul_self (x - base) hL
        linarith
    · exfalso
      have : g * L ≤ 0 := Int.mul_nonpos_of_nonneg_of_nonpos hg hL
      omega
  · rintro ⟨j, hj0, hj1, h0, h1⟩
    have hL : 0 < L := by omega
    constructor
    · nlinarith
    · have : (j + 1) * L ≤ g * L := by
        apply Int.mul_le_mul_of_nonneg_right (by omega) (by omega)
      linarith

/-- The blocks of `block_tile` do not overlap. -/
theorem block_unique (base L x j j' : Int) (h0 : base + j * L ≤ x)
    (h1 : x < base + j * L + L) (h0' : base + j' * L ≤ x) (h1' : x < base + j' * L + L) :
    j = j' := by
  have hL : 0 < L := by omega
  exact (mixed_radix_unique L j j' (x - base - j * L) (x - base - j' * L) (by omega)
    (by omega) (by omega) (by omega) (by ring)).1

theorem loop_store_unit_nat {α : Type} (g : Int → α → α) (k : Nat) (C : Buf α) (p : Int) :
    loop (k : Int) (fun i C => store C i (g i (C i))) C p
      = if 0 ≤ p ∧ p < (k : Int) then g p (C p) else C p := by
  induction k with
  | zero =>
    have : ¬ (0 ≤ p ∧ p < ((0 : Nat) : Int)) := by omega
    rw [if_neg this]
    simp [loop]
  | succ k ih =>
    have := loop_natCast_succ k (fun i C => store C i (g i (C i))) C
    simp only [Nat.cast_succ] at *
    rw [this]
    simp only [store]
    by_cases hp : p = (k : Int)
    · have h2 : (0 ≤ p ∧ p < (k : Int) + 1) := by omega
      rw [if_pos hp, if_pos h2]
      subst hp
      have h1 : ¬ ((0 : Int) ≤ (k : Int) ∧ (k : Int) < (k : Int)) := by omega
      rw [ih, if_neg h1]
    · rw [if_neg hp, ih]
      by_cases h3 : 0 ≤ p ∧ p < (k : Int)
      · have h4 : 0 ≤ p ∧ p < (k : Int) + 1 := by omega
        rw [if_pos h3, if_pos h4]
      · have h4 : ¬ (0 ≤ p ∧ p < (k : Int) + 1) := by omega
        rw [if_neg h3, if_neg h4]

/-- A loop that rewrites element `i` in iteration `i` (unit stride). -/
theorem loop_store_unit {α : Type} (g : Int → α → α) (n : Int) (C : Buf α) (p : Int) :
    loop n (fun i C => store C i (g i (C i))) C p
      = if 0 ≤ p ∧ p < n then g p (C p) else C p := by
  rcases le_or_lt n 0 with hn | hn
  · rw [loop_of_nonpos n hn]
    have : ¬ (0 ≤ p ∧ p < n) := by omega
    rw [if_neg this]
  · obtain ⟨k, rfl⟩ : ∃ k : Nat, n = k := ⟨n.toNat, by omega⟩
    exact loop_store_unit_nat g k C p

/-- A loop that stores a value depending on the index only. -/
theorem loop_store_init {α : Type} (f : Int → α) (n : Int) (C : Buf α) (p : Int) :
    loop n (fun i C => store C i (f i)) C p = if 0 ≤ p ∧ p < n then f p else C p :=
  loop_store_unit (fun i _ => f i) n C p

theorem fill_cpu_unit {α : Type} (N : Int) (ALPHA : α) (X : Buf α) (p : Int) :
    fill_cpu N ALPHA X 1 p = if 0 ≤ p ∧ p < N then ALPHA else X p := by
  have := loop_store_unit (fun _ _ => ALPHA) N X p
  simpa [fill_cpu] using this

theorem axpy_cpu_unit {α : Type} [Add α] [Mul α] (N : Int) (ALPHA : α) (X Y : Buf α)
    (p : Int) :
    axpy_cpu N ALPHA X 1 Y 1 p = if 0 ≤ p ∧ p < N then Y p + ALPHA * X p else Y p := by
  have := loop_store_unit (fun i y => y + ALPHA * X i) N Y p
  simpa [axpy_cpu] using this

theorem scal_cpu_unit {α : Type} [Mul α] (N : Int) (ALPHA : α) (X : Buf α) (p : Int) :
    scal_cpu N ALPHA X 1 p = if 0 ≤ p ∧ p < N then X p * ALPHA else X p := by
  have := loop_store_unit (fun _ x => x * ALPHA) N X p
  simpa [scal_cpu] using this

/-! ## Doubly nested store loops -/

/-- A doubly nested loop that rewrites element `f i j` in iteration `(i, j)` leaves
every other element alone. -/
theorem loop2_store_frame {α : Type} (M N : Int) (f : Int → Int → Int)
    (g : Int → Int → α → α) (C : Buf α) (p : Int)
    (hp : ∀ i j, 0 ≤ i → i < M → 0 ≤ j → j < N → p ≠ f i j) :
    loop M (fun i C => loop N (fun j C => store C (f i j) (g i j (C (f i j)))) C) C p = C p := by
  apply loop_frame (fun C : Buf α => C p)
  intro i hi0 hi1 C1
  apply loop_frame (fun C : Buf α => C p)
  intro j hj0 hj1 C2
  exact store_other _ _ _ _ (hp i j hi0 hi1 hj0 hj1)

/-- A doubly nested loop that rewrites element `f i j` in iteration `(i, j)`, at an
element that only iteration `(i, j)` addresses. -/
theorem loop2_store_at {α : Type} (M N : Int) (f : Int → Int → Int)
    (g : Int → Int → α → α) (C : Buf α) (i j : Int)
    (hi0 : 0 ≤ i) (hi1 : i < M) (hj0 : 0 ≤ j) (hj1 : j < N)
    (hinj : ∀ i' j', 0 ≤ i' → i' < M → 0 ≤ j' → j' < N → f i' j' = f i j → i' = i ∧ j' = j) :
    loop M (fun i C => loop N (fun j C => store C (f i j) (g i j (C (f i j)))) C) C (f i j)
      = g i j (C (f i j)) := by
  have hne : ∀ i' j', 0 ≤ i' → i' < M → 0 ≤ j' → j' < N → (i' ≠ i ∨ j' ≠ j) →
      f i j ≠ f i' j' := by
    intro i' j' h0 h1 h2 h3 hor heq
    have := hinj i' j' h0 h1 h2 h3 heq.symm
    rcases hor with h | h
    · exact h this.1
    · exact h this.2
  rw [loop_hit (fun C : Buf α => C (f i j)) M _ C i hi0 hi1]
  · rw [loop_hit (fun C : Buf α => C (f i j)) N _ _ j hj0 hj1]
    · rw [store_same]
      congr 1
      rw [loop_frame (fun C : Buf α => C (f i j))]
      · rw [loop_frame (fun C : Buf α => C (f i j))]
        intro i' hi0' hi1' C1
        apply loop_frame (fun C : Buf α => C (f i j))
        intro j' hj0' hj1' C2
        exact store_other _ _ _ _
          (hne i' j' hi0' (by omega) hj0' hj1' (Or.inl (by omega)))
      · intro j' hj0' hj1' C2
        exact store_other _ _ _ _ (hne i j' hi0 hi1 hj0' (by omega) (Or.inr (by omega)))
    · intro j' hj0' hj1' hjne C2
      exact store_other _ _ _ _ (hne i j' hi0 hi1 hj0' hj1' (Or.inr hjne))
  · intro i' hi0' hi1' hine C1
    apply loop_frame (fun C : Buf α => C (f i j))
    intro j' hj0' hj1' C2
    exact store_other _ _ _ _ (hne i' j' hi0' hi1' hj0' hj1' (Or.inl hine))

/-- A doubly nested store loop is elementwise: what it leaves at `p` depends on the
initial buffer through its value at `p` only. -/
theorem loop2_store_agree {α : Type} (M N : Int) (f : Int → Int → Int)
    (g : Int → Int → α → α) (C C' : Buf α) (p : Int) (h : C p = C' p) :
    loop M (fun i C => loop N (fun j C => store C (f i j) (g i j (C (f i j)))) C) C p
      = loop M (fun i C => loop N (fun j C => store C (f i j) (g i j (C (f i j)))) C) C' p := by
  apply loop_relation (fun C C' : Buf α => C p = C' p) M _ _ C C' h
  intro i _ _ C1 C1' h1
  apply loop_relation (fun C C' : Buf α => C p = C' p) N _ _ C1 C1' h1
  intro j _ _ C2 C2' h2
  by_cases hp : p = f i j
  · subst hp
    rw [store_same, store_same, h2]
  · rw [store_other _ _ _ _ hp, store_other _ _ _ _ hp, h2]

/-- Row-major addressing `coff + (i*ld + j)` with `0 <= j < N <= ld` is injective. -/
theorem row_major_inj (coff ld N i j i' j' : Int) (hj0 : 0 ≤ j) (hj1 : j < N)
    (hj0' : 0 ≤ j') (hj1' : j' < N) (hld : N ≤ ld)
    (h : coff + (i' * ld + j') = coff + (i * ld + j)) : i' = i ∧ j' = j :=
  mixed_radix_unique ld i' i j' j hj0' (by omega) hj0 (by omega) (by linarith)

/-! ## Matrix multiply -/

/-- The routine `gemm` leaves every element outside the `M x N` block of `C` alone. -/
theorem gemm_frame {α : Type} [CommRing α] (TA TB M N K : Int) (ALPHA : α) (A : Buf α)
    (lda : Int) (B : Buf α) (ldb : Int) (BETA : α) (C : Buf α) (coff ldc p : Int)
    (hp : ∀ i j, 0 ≤ i → i < M → 0 ≤ j → j < N → p ≠ coff + (i * ldc + j)) :
    gemm TA TB M N K ALPHA A lda B ldb BETA C coff ldc p = C p :=
  loop2_store_frame M N (fun i j => coff + (i * ldc + j))
    (fun i j x => BETA * x + ALPHA * gemm_dot TA TB K A lda B ldb i j) C p hp

/-- The routine `gemm` at an element of the `M x N` block of `C` (rows do not overlap when
`N <= ldc`). -/
theorem gemm_at {α : Type} [CommRing α] (TA TB M N K : Int) (ALPHA : α) (A : Buf α)
    (lda : Int) (B : Buf α) (ldb : Int) (BETA : α) (C : Buf α) (coff ldc i j : Int)
    (hi0 : 0 ≤ i) (hi1 : i < M) (hj0 : 0 ≤ j) (hj1 : j < N) (hld : N ≤ ldc) :
    gemm TA TB M N K ALPHA A lda B ldb BETA C coff ldc (coff + (i * ldc + j))
      = BETA * C (coff + (i * ldc + j)) + ALPHA * gemm_dot TA TB K A lda B ldb i j :=
  loop2_store_at M N (fun i j => coff + (i * ldc + j))
    (fun i j x => BETA * x + ALPHA * gemm_dot TA TB K A lda B ldb i j) C i j hi0 hi1 hj0 hj1
    (fun i' j' _ _ hj0' hj1' h => row_major_inj coff ldc N i j i' j' hj0 hj1 hj0' hj1' hld h)

/-- The routine `gemm` is elementwise in `C`: what it leaves at `p` depends on `C` through `C p`
only. -/
theorem gemm_agree {α : Type} [CommRing α] (TA TB M N K : Int) (ALPHA : α) (A : Buf α)
    (lda : Int) (B : Buf α) (ldb : Int) (BETA : α) (C C' : Buf α) (coff ldc p : Int)
    (h : C p = C' p) :
    gemm TA TB M N K ALPHA A lda B ldb BETA C coff ldc p
      = gemm TA TB M N K ALPHA A lda B ldb BETA C' coff ldc p :=
  loop2_store_agree M N (fun i j => coff + (i * ldc + j))
    (fun i j x => BETA * x + ALPHA * gemm_dot TA TB K A lda B ldb i j) C C' p h

/-- Without transposition, `gemm_dot` reads `B` at `k*ldb + j`, `0 <= k < K`, only. -/
theorem gemm_dot_congr_B {α : Type} [CommRing α] (TA K : Int) (A : Buf α) (lda : Int)
    (B B' : Buf α) (ldb i j : Int) (h : ∀ k, 0 ≤ k → k < K → B (k * ldb + j) = B' (k * ldb + j)) :
    gemm_dot TA 0 K A lda B ldb i j = gemm_dot TA 0 K A lda B' ldb i j := by
  unfold gemm_dot
  apply loop_congr
  intro k hk0 hk1 acc
  simp [h k hk0 hk1]

/-- The inner product of `gemm` without transposition, as a finite sum. -/
theorem gemm_dot_nn {α : Type} [CommRing α] (K : Int) (A : Buf α) (lda : Int) (B : Buf α)
    (ldb i j : Int) :
    gemm_dot 0 0 K A lda B ldb i j
      = ∑ k in Finset.range K.toNat, A (i * lda + (k : Int)) * B ((k : Int) * ldb + j) := by
  unfold gemm_dot
  simp only [ne_eq, not_true_eq_false, if_false]
  exact loop_sum K (fun k => A (i * lda + k) * B (k * ldb + j))

/-! ## Unfold -/

/-- After `im2col_dilated_cpu`, entry `[t][q]` of the column buffer is the unfold
entry, whatever the buffer held before. -/
theorem im2col_at {α : Type} [Zero α] (im : Buf α) (channels height width ksize stride pad : Int)
    (col : Buf α) (dilate_rate hc wc t q : Int)
    (hhc : hc = (height + 2 * pad - ((dilate_rate - 1) * (ksize + 1) + ksize)).tdiv stride + 1)
    (hwc : wc = (width + 2 * pad - ((dilate_rate - 1) * (ksize + 1) + ksize)).tdiv stride + 1)
    (ht0 : 0 ≤ t) (ht1 : t < channels * ksize * ksize) (hq0 : 0 ≤ q) (hq1 : q < hc * wc) :
    im2col_dilated_cpu im channels height width ksize stride pad col dilate_rate
        (t * (hc * wc) + q)
      = unfold_entry im height width ksize stride pad dilate_rate wc t q := by
  subst hhc hwc
  exact loop2_store_at (channels * ksize * ksize) _ (fun t q => t * (_ * _) + q)
    (fun t q _ => unfold_entry im height width ksize stride pad dilate_rate _ t q) col t q
    ht0 ht1 hq0 hq1
    (fun t' q' _ _ hq0' hq1' h => mixed_radix_unique _ t' t q' q hq0' hq1' hq0 hq1 h)

/-! ## Bias -/

/-- Addressing `(b*n + i)*size + j` with `0 <= i < n`, `0 <= j < size` is injective. -/
theorem bias_index_inj (n size b i j b' i' j' : Int) (hi0 : 0 ≤ i) (hi1 : i < n)
    (hj0 : 0 ≤ j) (hj1 : j < size) (hi0' : 0 ≤ i') (hi1' : i' < n) (hj0' : 0 ≤ j')
    (hj1' : j' < size) (h : (b' * n + i') * size + j' = (b * n + i) * size + j) :
    b' = b ∧ i' = i ∧ j' = j := by
  have h1 := mixed_radix_unique size (b' * n + i') (b * n + i) j' j hj0' hj1' hj0 hj1 h
  have h2 := mixed_radix_unique n b' b i' i hi0' hi1' hi0 hi1 h1.1
  exact ⟨h2.1, h2.2, h1.2⟩

/-- The routine `add_bias_dilated` adds `biases[i]` to the element of batch `b`, channel `i`,
position `j`. -/
theorem add_bias_dilated_at {α : Type} [Add α] (output biases : Buf α) (batch n size : Int)
    (b i j : Int) (hb0 : 0 ≤ b) (hb1 : b < batch) (hi0 : 0 ≤ i) (hi1 : i < n) (hj0 : 0 ≤ j)
    (hj1 : j < size) :
    add_bias_dilated output biases batch n size ((b * n + i) * size + j)
      = output ((b * n + i) * size + j) + biases i := by
  unfold add_bias_dilated
  rw [loop_hit (fun C : Buf α => C ((b * n + i) * size + j)) batch _ output b hb0 hb1]
  · rw [loop2_store_at n size (fun i j => (b * n + i) * size + j)
      (fun i _ x => x + biases i) _ i j hi0 hi1 hj0 hj1
      (fun i' j' hi0' hi1' hj0' hj1' h =>
        (bias_index_inj n size b i j b i' j' hi0 hi1 hj0 hj1 hi0' hi1' hj0' hj1' h).2)]
    congr 1
    apply loop_frame (fun C : Buf α => C ((b * n + i) * size + j))
    intro b' hb0' hb1' C1
    apply loop2_store_frame n size (fun i j => (b' * n + i) * size + j)
      (fun i _ x => x + biases i)
    intro i' j' hi0' hi1' hj0' hj1' h
    have := (bias_index_inj n size b i j b' i' j' hi0 hi1 hj0 hj1 hi0' hi1' hj0' hj1'
      h.symm).1
    omega
  · intro b' hb0' hb1' hne C1
    apply loop2_store_frame n size (fun i j => (b' * n + i) * size + j)
      (fun i _ x => x + biases i)
    intro i' j' hi0' hi1' hj0' hj1' h
    exact hne (bias_index_inj n size b i j b' i' j' hi0 hi1 hj0 hj1 hi0' hi1' hj0' hj1'
      h.symm).1

/-- The routine `add_bias_dilated` is elementwise in `output`. -/
theorem add_bias_dilated_agree {α : Type} [Add α] (output output' biases : Buf α)
    (batch n size p : Int) (h : output p = output' p) :
    add_bias_dilated output biases batch n size p
      = add_bias_dilated output' biases batch n size p := by
  unfold add_bias_dilated
  apply loop_relation (fun C C' : Buf α => C p = C' p) batch _ _ output output' h
  intro b _ _ C1 C1' h1
  exact loop2_store_agree n size (fun i j => (b * n + i) * size + j)
    (fun i _ x => x + biases i) C1 C1' p h1

/-- The call `add_bias` adds `biases[i]` to the element of batch `b`, channel `i`,
position `j`. -/
theorem add_bias_at {α : Type} [Add α] (output biases : Buf α) (batch n size : Int)
    (b i j : Int) (hb0 : 0 ≤ b) (hb1 : b < batch) (hi0 : 0 ≤ i) (hi1 : i < n)
    (hj0 : 0 ≤ j) (hj1 : j < size) :
    add_bias output biases batch n size ((b * n + i) * size + j)
      = output ((b * n + i) * size + j) + biases i :=
  add_bias_dilated_at output biases batch n size b i j hb0 hb1 hi0 hi1 hj0 hj1

/-- The call `add_bias` is elementwise in `output`. -/
theorem add_bias_agree {α : Type} [Add α] (output output' biases : Buf α)
    (batch n size : Int) (p : Int) (h : output p = output' p) :
    add_bias output biases batch n size p = add_bias output' biases batch n size p :=
  add_bias_dilated_agree output output' biases batch n size p h

theorem activate_array_at {α : Type} (x : Buf α) (n : Int) (a : ACTIVATION α) (p : Int) :
    activate_array x n a p = if 0 ≤ p ∧ p < n then a.activate (x p) else x p :=
  loop_store_unit (fun _ v => a.activate v) n x p

/-! ## Output geometry -/

theorem out_dim_floor (x s : Int) (hx : 0 ≤ x) (hs : 1 ≤ s) :
    x.tdiv s + 1 = ⌊((x : ℚ) / (s : ℚ))⌋ + 1 := by
  rw [Int.tdiv_eq_ediv hx (by omega)]
  congr 1
  symm
  rw [Int.floor_eq_iff]
  have hs0 : (0 : ℚ) < (s : ℚ) := by exact_mod_cast (by omega : (0 : Int) < s)
  have h1 : s * (x / s) ≤ x := Int.mul_ediv_self_le (by omega)
  have h2 : x < s * (x / s) + s := Int.lt_mul_ediv_self_add (by omega)
  constructor
  · rw [le_div_iff₀ hs0]
    have : ((x / s * s : Int) : ℚ) ≤ (x : ℚ) := by
      exact_mod_cast (by linarith : x / s * s ≤ x)
    simpa using this
  · rw [div_lt_iff₀ hs0]
    have : ((x : Int) : ℚ) < ((x / s + 1) * s : Int) := by
      exact_mod_cast (by linarith : x < (x / s + 1) * s)
    simpa using this

/-- C1. For stride >= 1, size >= 1, dilate_rate >= 1, pad >= 0 and
`h + 2*pad >= dsize` (resp. `w + 2*pad >= dsize`) with
`dsize = (dilate_rate-1)*(size+1) + size`, `dilated_conv_out_height` returns
`floor((h + 2*pad - dsize)/stride) + 1` and `dilated_conv_out_width` returns
`floor((w + 2*pad - dsize)/stride) + 1`; for `h = w = 9`, `size = 3`, `stride = 2`,
`pad = 0`, `dilate_rate = 2` both return 2. -/
theorem out_dims_formula {α : Type} (l : Layer α) (hstride : 1 ≤ l.stride)
    (_hsize : 1 ≤ l.size) (_hdil : 1 ≤ l.dilate_rate) (_hpad : 0 ≤ l.pad) :
    ((l.dilate_rate - 1) * (l.size + 1) + l.size ≤ l.h + 2 * l.pad →
      dilated_conv_out_height l
        = ⌊(((l.h + 2 * l.pad - ((l.dilate_rate - 1) * (l.size + 1) + l.size) : Int) : ℚ)
            / (l.stride : ℚ))⌋ + 1) ∧
    ((l.dilate_rate - 1) * (l.size + 1) + l.size ≤ l.w + 2 * l.pad →
      dilated_conv_out_width l
        = ⌊(((l.w + 2 * l.pad - ((l.dilate_rate - 1) * (l.size + 1) + l.size) : Int) : ℚ)
            / (l.stride : ℚ))⌋ + 1) ∧
    (l.h = 9 → l.w = 9 → l.size = 3 → l.stride = 2 → l.pad = 0 → l.dilate_rate = 2 →
      dilated_conv_out_height l = 2 ∧ dilated_conv_out_width l = 2) := by
  refine ⟨fun hh => ?_, fun hw => ?_, ?_⟩
  · exact out_dim_floor _ _ (by linarith) hstride
  · exact out_dim_floor _ _ (by linarith) hstride
  · intro h1 h2 h3 h4 h5 h6
    simp only [dilated_conv_out_height, dilated_conv_out_width, h1, h2, h3, h4, h5, h6]
    decide

theorem out_dims_formula_witness :
    dilated_conv_out_height test_new_dconv_layer = 2 ∧
      dilated_conv_out_width test_new_dconv_layer = 2 :=
  (out_dims_formula test_new_dconv_layer (by decide) (by decide) (by decide)
    (by decide)).2.2 rfl rfl rfl rfl rfl rfl

/-! ## Parameter update -/

/-- Whatever the scales step did, a returning `update_dilated_conv_layer` leaves the
record with these biases, weights and their update buffers, and with the scales pair
the step produced. -/
theorem update_some {α : Type} [Field α] (l : Layer α) (a : update_args α) (l' : Layer α)
    (h : update_dilated_conv_layer l a = some l') :
    l'.biases
        = axpy_cpu l.n (a.learning_rate * l.learning_rate_scale / (a.batch : α))
            l.bias_updates 1 l.biases 1 ∧
      l'.bias_updates = scal_cpu l.n a.momentum l.bias_updates 1 ∧
      l'.weights
        = axpy_cpu l.nweights (a.learning_rate * l.learning_rate_scale / (a.batch : α))
            (axpy_cpu l.nweights (-a.decay * (a.batch : α)) l.weights 1 l.weight_updates 1)
            1 l.weights 1 ∧
      l'.weight_updates
        = scal_cpu l.nweights a.momentum
            (axpy_cpu l.nweights (-a.decay * (a.batch : α)) l.weights 1 l.weight_updates 1)
            1 ∧
      update_scales_step l (a.learning_rate * l.learning_rate_scale / (a.batch : α))
          a.momentum
        = some (l'.scales, l'.scale_updates) := by
  simp only [update_dilated_conv_layer, Option.map_eq_some'] at h
  obtain ⟨sp, hsp, rfl⟩ := h
  exact ⟨rfl, rfl, rfl, rfl, hsp⟩

/-- The call returns when `scale_updates` is allocated whenever `scales` is. -/
theorem update_returns {α : Type} [Field α] (l : Layer α) (a : update_args α)
    (h : l.scales.isSome → l.scale_updates.isSome) :
    ∃ l', update_dilated_conv_layer l a = some l' := by
  simp only [update_dilated_conv_layer, Option.map_eq_some']
  cases hs : l.scales with
  | none => exact ⟨_, ⟨(none, l.scale_updates), by simp only [update_scales_step, hs], rfl⟩⟩
  | some s =>
    cases hu : l.scale_updates with
    | none => simp [hs, hu] at h
    | some su =>
      exact ⟨_, ⟨(some (axpy_cpu l.n
          (a.learning_rate * l.learning_rate_scale / (a.batch : α)) su 1 s 1),
          some (scal_cpu l.n a.momentum su 1)),
        by simp only [update_scales_step, hs, hu], rfl⟩⟩

/-- The call does not return when `scales` is allocated, `scale_updates` is NULL and
there is at least one filter. -/
theorem update_faults {α : Type} [Field α] (l : Layer α) (a : update_args α)
    (hs : l.scales.isSome) (hu : l.scale_updates = none) (hn : 0 < l.n) :
    update_dilated_conv_layer l a = none := by
  cases hs' : l.scales with
  | none => simp [hs'] at hs
  | some s => simp [update_dilated_conv_layer, update_scales_step, hs', hu, hn]

theorem update_biases {α : Type} [Field α] (l : Layer α) (a : update_args α) (l' : Layer α)
    (h : update_dilated_conv_layer l a = some l') (i : Int) :
    l'.biases i
      = if 0 ≤ i ∧ i < l.n then
          l.biases i + a.learning_rate * l.learning_rate_scale / (a.batch : α)
            * l.bias_updates i
        else l.biases i := by
  rw [(update_some l a l' h).1, axpy_cpu_unit]

theorem update_bias_updates {α : Type} [Field α] (l : Layer α) (a : update_args α)
    (l' : Layer α) (h : update_dilated_conv_layer l a = some l') (i : Int) :
    l'.bias_updates i
      = if 0 ≤ i ∧ i < l.n then l.bias_updates i * a.momentum else l.bias_updates i := by
  rw [(update_some l a l' h).2.1, scal_cpu_unit]

theorem update_scales {α : Type} [Field α] (l : Layer α) (a : update_args α) (l' : Layer α)
    (h : update_dilated_conv_layer l a = some l') (s su : Buf α) (hs : l.scales = some s)
    (hu : l.scale_updates = some su) :
    l'.scales
        = some (axpy_cpu l.n (a.learning_rate * l.learning_rate_scale / (a.batch : α))
            su 1 s 1) ∧
      l'.scale_updates = some (scal_cpu l.n a.momentum su 1) := by
  have h5 := (update_some l a l' h).2.2.2.2
  simp only [update_scales_step, hs, hu, Option.some.injEq, Prod.mk.injEq] at h5
  exact ⟨h5.1.symm, h5.2.symm⟩

theorem update_no_scales {α : Type} [Field α] (l : Layer α) (a : update_args α)
    (l' : Layer α) (h : update_dilated_conv_layer l a = some l') (hs : l.scales = none) :
    l'.scales = none ∧ l'.scale_updates = l.scale_updates := by
  have h5 := (update_some l a l' h).2.2.2.2
  simp only [update_scales_step, hs, Option.some.injEq, Prod.mk.injEq] at h5
  exact ⟨h5.1.symm, h5.2.symm⟩

theorem update_weights {α : Type} [Field α] (l : Layer α) (a : update_args α)
    (l' : Layer α) (h : update_dilated_conv_layer l a = some l') (i : Int) :
    l'.weights i
      = if 0 ≤ i ∧ i < l.nweights then
          l.weights i + a.learning_rate * l.learning_rate_scale / (a.batch : α)
            * (l.weight_updates i + -a.decay * (a.batch : α) * l.weights i)
        else l.weights i := by
  rw [(update_some l a l' h).2.2.1]
  simp only [axpy_cpu_unit]
  by_cases h : 0 ≤ i ∧ i < l.nweights
  · simp only [if_pos h]
  · simp only [if_neg h]

theorem update_weight_updates {α : Type} [Field α] (l : Layer α) (a : update_args α)
    (l' : Layer α) (h : update_dilated_conv_layer l a = some l') (i : Int) :
    l'.weight_updates i
      = if 0 ≤ i ∧ i < l.nweights then
          (l.weight_updates i + -a.decay * (a.batch : α) * l.weights i) * a.momentum
        else l.weight_updates i := by
  rw [(update_some l a l' h).2.2.2.1]
  simp only [axpy_cpu_unit, scal_cpu_unit]
  by_cases h : 0 ≤ i ∧ i < l.nweights
  · simp only [if_pos h]
  · simp only [if_neg h]

/-- C2, as stated, fails: on a freshly made layer (`learning_rate_scale = 0`, no
scales) with `bias_updates[0] = 1`, rate 1 and batch 1, the call returns and the bias
is not moved by `(learning_rate/batch) * bias_updates`. -/
theorem update_supplied_rate_counterexample :
    ∃ l', update_dilated_conv_layer update_test_layer update_test_args = some l' ∧
      l'.biases 0
        ≠ update_test_layer.biases 0
          + update_test_args.learning_rate / (update_test_args.batch : ℚ)
            * update_test_layer.bias_updates 0 := by
  obtain ⟨l', hl'⟩ := update_returns update_test_layer update_test_args (by decide)
  refine ⟨l', hl', ?_⟩
  rw [update_biases _ _ _ hl']
  simp [update_test_layer, update_test_args, make_dilated_conv_layer, Layer.zero]

/-- C2 (amended). For every layer and every update_args with batch != 0, the call of
`update_dilated_conv_layer` returns when `scale_updates` is allocated whenever `scales`
is, and whenever it returns it has changed each parameter buffer by exactly
`(learning_rate * learning_rate_scale / batch)` times its update buffer, where
`learning_rate` is the rate supplied in the arguments and `learning_rate_scale` is the
layer's own multiplier: biases, scales when scales and scale_updates are present, and
weights with `weight_updates - decay*batch*weights` as the update. -/
theorem update_adds_scaled_rate {α : Type} [Field α] (l : Layer α) (a : update_args α)
    (_hbatch : a.batch ≠ 0) :
    ((l.scales.isSome → l.scale_updates.isSome) →
      ∃ l', update_dilated_conv_layer l a = some l') ∧
    ∀ l', update_dilated_conv_layer l a = some l' →
      (∀ i, 0 ≤ i → i < l.n →
        l'.biases i
          = l.biases i
            + a.learning_rate * l.learning_rate_scale / (a.batch : α)
              * l.bias_updates i) ∧
      (∀ s su, l.scales = some s → l.scale_updates = some su →
        ∃ s', l'.scales = some s' ∧
          ∀ i, 0 ≤ i → i < l.n →
            s' i = s i
              + a.learning_rate * l.learning_rate_scale / (a.batch : α) * su i) ∧
      (∀ i, 0 ≤ i → i < l.nweights →
        l'.weights i
          = l.weights i
            + a.learning_rate * l.learning_rate_scale / (a.batch : α)
              * (l.weight_updates i - a.decay * (a.batch : α) * l.weights i)) := by
  refine ⟨update_returns l a, fun l' hl' =>
    ⟨fun i h0 h1 => ?_, fun s su hs hu => ?_, fun i h0 h1 => ?_⟩⟩
  · rw [update_biases l a l' hl', if_pos ⟨h0, h1⟩]
  · refine ⟨_, (update_scales l a l' hl' s su hs hu).1, fun i h0 h1 => ?_⟩
    rw [axpy_cpu_unit, if_pos ⟨h0, h1⟩]
  · rw [update_weights l a l' hl', if_pos ⟨h0, h1⟩]
    ring

theorem update_adds_scaled_rate_witness :
    ∃ l' s',
      update_dilated_conv_layer update_test_layer_scaled update_test_args = some l' ∧
      l'.scales = some s' ∧ s' 0 = 6 ∧ l'.weights 0 = 3 :=
  match (update_adds_scaled_rate update_test_layer_scaled update_test_args
      (by decide)).1 (fun _ => rfl) with
  | ⟨l', hl'⟩ =>
    match ((update_adds_scaled_rate update_test_layer_scaled update_test_args
        (by decide)).2 l' hl').2.1 (fun _ => 1) (fun _ => 5) rfl rfl with
    | ⟨s', hs', hval⟩ =>
      ⟨l', s', hl', hs', (hval 0 (by decide) (by decide)).trans (by
          simp [update_test_layer_scaled, update_test_args, update_test_layer,
            make_dilated_conv_layer, Layer.zero]; norm_num),
        (((update_adds_scaled_rate update_test_layer_scaled update_test_args
          (by decide)).2 l' hl').2.2 0 (by decide) (by decide)).trans (by
          simp [update_test_layer_scaled, update_test_args, update_test_layer,
            make_dilated_conv_layer, Layer.zero, loop_store_init])⟩

/-- C3 fails on a layer fresh from `make_dilated_conv_layer` with `binary = 1` and
`batch_normalize = 0`: its `scales` is allocated, its `scale_updates` is NULL, it has
one filter, and `update_dilated_conv_layer` does not return (it reads through the NULL
pointer at line 494), so no update buffer is attenuated. -/
theorem update_reads_null_scale_updates :
    binary_only_layer.scales.isSome = true ∧
      binary_only_layer.scale_updates = none ∧
      binary_only_layer.n = 1 ∧
      update_dilated_conv_layer binary_only_layer update_test_args = none := by
  have hs : binary_only_layer.scales.isSome = true := by
    simp [binary_only_layer, make_dilated_conv_layer, Layer.zero]
  have hu : binary_only_layer.scale_updates = none := by
    simp [binary_only_layer, make_dilated_conv_layer, Layer.zero]
  have hn : binary_only_layer.n = 1 := by
    simp [binary_only_layer, make_dilated_conv_layer, Layer.zero]
  exact ⟨hs, hu, hn, update_faults _ _ hs hu (by rw [hn]; decide)⟩

/-- Whenever `update_dilated_conv_layer` returns, it has applied weight decay to the
weights only and attenuated every update buffer by momentum. -/
theorem update_decay_then_momentum {α : Type} [Field α] (l : Layer α) (a : update_args α)
    (l' : Layer α) (hl' : update_dilated_conv_layer l a = some l') :
    (∀ i, 0 ≤ i → i < l.nweights →
      l'.weight_updates i
        = a.momentum * (l.weight_updates i - a.decay * (a.batch : α) * l.weights i)) ∧
    (∀ i, 0 ≤ i → i < l.n → l'.bias_updates i = a.momentum * l.bias_updates i) ∧
    (∀ s su, l.scales = some s → l.scale_updates = some su →
      ∃ su', l'.scale_updates = some su' ∧
        ∀ i, 0 ≤ i → i < l.n → su' i = a.momentum * su i) ∧
    (∀ (decay' : α) (l'' : Layer α),
      update_dilated_conv_layer l { a with decay := decay' } = some l'' →
        l''.biases = l'.biases ∧ l''.scales = l'.scales ∧
          l''.bias_updates = l'.bias_updates ∧ l''.scale_updates = l'.scale_updates) := by
  refine ⟨fun i h0 h1 => ?_, fun i h0 h1 => ?_, fun s su hs hu => ?_, fun d l'' hl'' => ?_⟩
  · rw [update_weight_updates l a l' hl', if_pos ⟨h0, h1⟩]
    ring
  · rw [update_bias_updates l a l' hl', if_pos ⟨h0, h1⟩]
    ring
  · refine ⟨_, (update_scales l a l' hl' s su hs hu).2, fun i h0 h1 => ?_⟩
    rw [scal_cpu_unit, if_pos ⟨h0, h1⟩]
    ring
  · have e1 := update_some l a l' hl'
    have e2 := update_some l { a with decay := d } l'' hl''
    have e3 : (l''.scales, l''.scale_updates) = (l'.scales, l'.scale_updates) :=
      Option.some.inj (e2.2.2.2.2.symm.trans e1.2.2.2.2)
    simp only [Prod.mk.injEq] at e3
    exact ⟨e2.1.trans e1.1.symm, e3.1, e2.2.1.trans e1.2.1.symm, e3.2⟩

/-- C4, as stated, fails: with learning rate 0, momentum 1/2, decay 1, batch 1,
`weights[0] = 2` and `weight_updates[0] = 3`, the update returns and leaves
`weight_updates[0] = 1/2`, not `momentum * 3 = 3/2`. -/
theorem update_zero_rate_counterexample :
    ∃ l', update_dilated_conv_layer update_test_layer update_test_args_zero_rate = some l' ∧
      l'.weight_updates 0
        ≠ update_test_args_zero_rate.momentum * update_test_layer.weight_updates 0 := by
  obtain ⟨l', hl'⟩ :=
    update_returns update_test_layer update_test_args_zero_rate (by decide)
  refine ⟨l', hl', ?_⟩
  rw [update_weight_updates _ _ _ hl']
  simp [update_test_layer, update_test_args_zero_rate, make_dilated_conv_layer, Layer.zero,
    loop_store_init, to_int]
  norm_num

/-- C4 (amended). For every layer and every momentum, decay and batch != 0, applying
`update_dilated_conv_layer` with learning_rate = 0 returns when `scale_updates` is
allocated whenever `scales` is, and whenever it returns it leaves every weight
unchanged and leaves `weight_updates` equal to momentum times (its value before the
call minus `decay*batch*weights`); when decay = 0 this is momentum times its value
before the call. -/
theorem update_zero_rate {α : Type} [Field α] (l : Layer α) (a : update_args α)
    (_hbatch : a.batch ≠ 0) (hrate : a.learning_rate = 0) :
    ((l.scales.isSome → l.scale_updates.isSome) →
      ∃ l', update_dilated_conv_layer l a = some l') ∧
    ∀ l', update_dilated_conv_layer l a = some l' →
      (∀ i, l'.weights i = l.weights i) ∧
      (∀ i, 0 ≤ i → i < l.nweights →
        l'.weight_updates i
          = a.momentum * (l.weight_updates i - a.decay * (a.batch : α) * l.weights i)) ∧
      (a.decay = 0 → ∀ i, 0 ≤ i → i < l.nweights →
        l'.weight_updates i = a.momentum * l.weight_updates i) := by
  refine ⟨update_returns l a, fun l' hl' =>
    ⟨fun i => ?_, fun i h0 h1 => ?_, fun hd i h0 h1 => ?_⟩⟩
  · rw [update_weights l a l' hl', hrate]
    simp
  · rw [update_weight_updates l a l' hl', if_pos ⟨h0, h1⟩]
    ring
  · rw [update_weight_updates l a l' hl', if_pos ⟨h0, h1⟩, hd]
    ring

theorem update_zero_rate_witness :
    ∃ l',
      update_dilated_conv_layer update_test_layer update_test_args_zero_rate = some l' ∧
      l'.weights 0 = update_test_layer.weights 0 ∧
      l'.weight_updates 0
        = update_test_args_zero_rate.momentum
          * (update_test_layer.weight_updates 0
              - update_test_args_zero_rate.decay * (update_test_args_zero_rate.batch : ℚ)
                * update_test_layer.weights 0) :=
  match (update_zero_rate update_test_layer update_test_args_zero_rate (by decide) rfl).1
      (by decide) with
  | ⟨l', hl'⟩ =>
    ⟨l', hl',
      ((update_zero_rate update_test_layer update_test_args_zero_rate (by decide) rfl).2
        l' hl').1 0,
      ((update_zero_rate update_test_layer update_test_args_zero_rate (by decide) rfl).2
        l' hl').2.1 0 (by decide) (by decide)⟩
/-! ## Slices of the grouped driver -/

theorem output_offset_eq {α : Type} (l : Layer α) (i j : Int) :
    output_offset l i j = 0 + (i * l.groups + j) * (l.out_h * l.out_w * l.n.tdiv l.groups) := by
  unfold output_offset
  ring

/-- The forward group step changes the output buffer inside its span only. -/
theorem forward_group_step_frame {α : Type} [CommRing α] (l : Layer α) (net : Network α)
    (i j : Int) (s : ForwardState α) (x : Int)
    (hx : ¬ (output_offset l i j ≤ x ∧
      x < output_offset l i j + l.out_h * l.out_w * l.n.tdiv l.groups)) :
    (forward_group_step l net i j s).output x = s.output x := by
  unfold forward_group_step
  apply gemm_frame
  intro r q hr0 hr1 hq0 hq1 heq
  apply hx
  have h1 : r * (l.out_w * l.out_h) + (l.out_w * l.out_h) ≤ l.n.tdiv l.groups * (l.out_w * l.out_h) := by
    have : (r + 1) * (l.out_w * l.out_h) ≤ l.n.tdiv l.groups * (l.out_w * l.out_h) :=
      Int.mul_le_mul_of_nonneg_right (by omega) (by omega)
    linarith
  have h2 : 0 ≤ r * (l.out_w * l.out_h) := Int.mul_nonneg hr0 (by omega)
  have h3 : l.out_h * l.out_w * l.n.tdiv l.groups = l.n.tdiv l.groups * (l.out_w * l.out_h) := by
    ring
  rw [h3, heq]
  constructor <;> linarith

/-- Two output spans that share an element belong to the same batch element and
group. -/
theorem output_span_unique {α : Type} (l : Layer α)
    (i j i' j' x : Int) (hj0 : 0 ≤ j) (hj1 : j < l.groups) (hj0' : 0 ≤ j')
    (hj1' : j' < l.groups) (h0 : output_offset l i j ≤ x)
    (h1 : x < output_offset l i j + l.out_h * l.out_w * l.n.tdiv l.groups)
    (h0' : output_offset l i' j' ≤ x)
    (h1' : x < output_offset l i' j' + l.out_h * l.out_w * l.n.tdiv l.groups) :
    i = i' ∧ j = j' := by
  rw [output_offset_eq] at h0 h1 h0' h1'
  have := block_unique 0 (l.out_h * l.out_w * l.n.tdiv l.groups) x (i * l.groups + j)
    (i' * l.groups + j') h0 h1 h0' h1'
  exact mixed_radix_unique l.groups i i' j j' hj0 hj1 hj0' hj1' this

/-- Element `[r][q]` of the output slice of `(i, j)` lies in the span of `(i, j)`. -/
theorem output_index_in_span {α : Type} (l : Layer α) (i j r q : Int) (hr0 : 0 ≤ r)
    (hr1 : r < l.n.tdiv l.groups) (hq0 : 0 ≤ q) (hq1 : q < l.out_w * l.out_h) :
    output_offset l i j ≤ output_offset l i j + (r * (l.out_w * l.out_h) + q) ∧
      output_offset l i j + (r * (l.out_w * l.out_h) + q)
        < output_offset l i j + l.out_h * l.out_w * l.n.tdiv l.groups := by
  have h1 : (r + 1) * (l.out_w * l.out_h) ≤ l.n.tdiv l.groups * (l.out_w * l.out_h) :=
    Int.mul_le_mul_of_nonneg_right (by omega) (by omega)
  have h2 : 0 ≤ r * (l.out_w * l.out_h) := Int.mul_nonneg hr0 (by omega)
  have h3 : l.out_h * l.out_w * l.n.tdiv l.groups = l.n.tdiv l.groups * (l.out_w * l.out_h) := by
    ring
  rw [h3]
  constructor <;> linarith

/-- One forward group step adds to element `[r][q]` of its output slice the inner
product of row `r` of the weight slice with column `q` of the matrix handed to
`gemm`. -/
theorem forward_group_step_output_at {α : Type} [CommRing α] (l : Layer α) (net : Network α)
    (i j r q : Int) (s : ForwardState α) (hr0 : 0 ≤ r) (hr1 : r < l.n.tdiv l.groups)
    (hq0 : 0 ≤ q) (hq1 : q < l.out_w * l.out_h) :
    (forward_group_step l net i j s).output (output_offset l i j + (r * (l.out_w * l.out_h) + q))
      = s.output (output_offset l i j + (r * (l.out_w * l.out_h) + q))
        + gemm_dot 0 0 ((l.size * l.size * l.c).tdiv l.groups)
            (shift l.weights (weight_offset l j)) ((l.size * l.size * l.c).tdiv l.groups)
            (forward_gemm_b l net i j s.workspace) (l.out_w * l.out_h) r q := by
  unfold forward_group_step
  simp only []
  rw [gemm_at _ _ _ _ _ _ _ _ _ _ _ _ _ _ r q hr0 hr1 hq0 hq1 (le_refl _)]
  simp

/-- The group loops of the forward pass leave at element `[r][q]` of the output slice
of `(i, j)` the product computed by iteration `(i, j)`, added to the initial
content. -/
theorem forward_loops_output_at {α : Type} [CommRing α] (l : Layer α) (net : Network α)
    (s0 : ForwardState α) (i j r q : Int) (D : α)
    (hi0 : 0 ≤ i) (hi1 : i < l.batch) (hj0 : 0 ≤ j) (hj1 : j < l.groups)
    (hr0 : 0 ≤ r) (hr1 : r < l.n.tdiv l.groups) (hq0 : 0 ≤ q) (hq1 : q < l.out_w * l.out_h)
    (hD : ∀ ws, gemm_dot 0 0 ((l.size * l.size * l.c).tdiv l.groups)
      (shift l.weights (weight_offset l j)) ((l.size * l.size * l.c).tdiv l.groups)
      (forward_gemm_b l net i j ws) (l.out_w * l.out_h) r q = D) :
    (loop l.batch (fun i s => loop l.groups (fun j s => forward_group_step l net i j s) s)
        s0).output (output_offset l i j + (r * (l.out_w * l.out_h) + q))
      = s0.output (output_offset l i j + (r * (l.out_w * l.out_h) + q)) + D := by
  have hin := output_index_in_span l i j r q hr0 hr1 hq0 hq1
  generalize hp : output_offset l i j + (r * (l.out_w * l.out_h) + q) = p at hin
  have hfr : ∀ i' j', 0 ≤ j' → j' < l.groups → (i' ≠ i ∨ j' ≠ j) → ∀ s : ForwardState α,
      (forward_group_step l net i' j' s).output p = s.output p := by
    intro i' j' h0 h1 hor s
    apply forward_group_step_frame
    rintro ⟨h2, h3⟩
    have := output_span_unique l i j i' j' p hj0 hj1 h0 h1 hin.1 hin.2 h2 h3
    rcases hor with h | h
    · exact h this.1.symm
    · exact h this.2.symm
  rw [loop_hit (fun s : ForwardState α => s.output p) l.batch _ s0 i hi0 hi1]
  · rw [loop_hit (fun s : ForwardState α => s.output p) l.groups _ _ j hj0 hj1]
    · have hfr1 : (loop j (fun j s => forward_group_step l net i j s)
          (loop i (fun i s => loop l.groups (fun j s => forward_group_step l net i j s) s)
            s0)).output p = s0.output p := by
        rw [loop_frame (fun s : ForwardState α => s.output p)]
        · apply loop_frame (fun s : ForwardState α => s.output p)
          intro i' hi0' hi1' s1
          apply loop_frame (fun s : ForwardState α => s.output p)
          intro j' hj0' hj1' s2
          exact hfr i' j' hj0' hj1' (Or.inl (by omega)) s2
        · intro j' hj0' hj1' s2
          exact hfr i j' hj0' (by omega) (Or.inr (by omega)) s2
      show (forward_group_step l net i j _).output p = _
      rw [← hp, forward_group_step_output_at l net i j r q _ hr0 hr1 hq0 hq1, hD, hp, hfr1]
    · intro j' hj0' hj1' hne s2
      exact hfr i j' hj0' hj1' (Or.inr hne) s2
  · intro i' hi0' hi1' hne s1
    apply loop_frame (fun s : ForwardState α => s.output p)
    intro j' hj0' hj1' s2
    exact hfr i' j' hj0' hj1' (Or.inl hne) s2

/-- The group loops of the forward pass are elementwise in the output buffer. -/
theorem forward_loops_agree {α : Type} [CommRing α] (l : Layer α) (net : Network α)
    (s s' : ForwardState α) (p : Int) (hw : s.workspace = s'.workspace)
    (ho : s.output p = s'.output p) :
    (loop l.batch (fun i s => loop l.groups (fun j s => forward_group_step l net i j s) s)
        s).output p
      = (loop l.batch (fun i s => loop l.groups (fun j s => forward_group_step l net i j s) s)
        s').output p := by
  have key := loop_relation
    (fun a b : ForwardState α => a.workspace = b.workspace ∧ a.output p = b.output p)
    l.batch (fun i s => loop l.groups (fun j s => forward_group_step l net i j s) s)
    (fun i s => loop l.groups (fun j s => forward_group_step l net i j s) s) s s' ⟨hw, ho⟩
    (fun i _ _ a b hab =>
      loop_relation
        (fun a b : ForwardState α => a.workspace = b.workspace ∧ a.output p = b.output p)
        l.groups _ _ a b hab
        (fun j _ _ a b hab => by
          unfold forward_group_step
          simp only []
          rw [hab.1]
          exact ⟨rfl, gemm_agree _ _ _ _ _ _ _ _ _ _ _ _ _ _ _ p hab.2⟩))
  exact key.2

/-- The forward pass without XNOR and without batch normalization: zero the output,
run the group loops, add the biases, activate. -/
theorem forward_output_eq {α : Type} [CommRing α] (E : Collaborators α) (l : Layer α)
    (net : Network α) (hx : l.xnor = 0) (hbn : l.batch_normalize = 0) :
    (forward_dilated_conv_layer E l net).1.output
      = activate_array
          (add_bias
            (loop l.batch
              (fun i s => loop l.groups (fun j s => forward_group_step l net i j s) s)
              { output := fill_cpu (l.outputs * l.batch) 0 l.output 1,
                workspace := net.workspace }).output
            l.biases l.batch l.n (l.out_h * l.out_w))
          (l.outputs * l.batch) l.activation := by
  unfold forward_dilated_conv_layer forward_dilated_conv_layer_locals
  simp only [hx, hbn, ne_eq, not_true_eq_false, if_false, or_false, and_true]
  by_cases hb : l.binary = 0
  · simp only [hb, not_true_eq_false, if_false]
    rfl
  · simp only [hb, not_false_eq_true, if_true]
    rfl

/-- With a 1x1 kernel, stride 1, no padding and no dilation, the input slice read as a
dense matrix with rows of length `h*w` is the unfold matrix. -/
theorem pointwise_unfold_entry {α : Type} [Zero α] (im : Buf α) (h w t q : Int)
    (hw : 0 ≤ w) (hq0 : 0 ≤ q) (hq1 : q < w * h) :
    im (t * (w * h) + q) = unfold_entry im h w 1 1 0 1 w t q := by
  have hw0 : 0 < w := by
    rcases lt_or_eq_of_le hw with h1 | h1
    · exact h1
    · rw [← h1] at hq1
      omega
  have hrow0 : 0 ≤ q / w := Int.ediv_nonneg hq0 hw
  have hrow1 : q / w < h := Int.ediv_lt_of_lt_mul hw0 (by rw [Int.mul_comm]; exact hq1)
  have hcol0 : 0 ≤ q % w := Int.emod_nonneg _ (by omega)
  have hcol1 : q % w < w := Int.emod_lt_of_pos _ hw0
  have hdiv : w * (q / w) + q % w = q := Int.ediv_add_emod q w
  unfold unfold_entry unfold_tap
  simp only [mul_one, Int.ediv_one, Int.emod_one, sub_zero, mul_zero, add_zero]
  rw [if_pos ⟨hrow0, hrow1, hcol0, hcol1⟩]
  congr 1
  have e : (t * h + q / w) * w + q % w = t * (w * h) + (w * (q / w) + q % w) := by ring
  rw [e, hdiv]

/-- With a 1x1 kernel, stride 1, no padding and no dilation, the output geometry is
the input geometry. -/
theorem pointwise_out_dims {α : Type} (l : Layer α) (hs : l.size = 1) (hst : l.stride = 1)
    (hp : l.pad = 0) (hd : l.dilate_rate = 1) :
    dilated_conv_out_height l = l.h ∧ dilated_conv_out_width l = l.w := by
  unfold dilated_conv_out_height dilated_conv_out_width
  rw [hs, hst, hp, hd]
  simp

/-- When `groups` divides `c` and either `size != 1` or the kernel is 1x1 with stride 1,
no padding and no dilation, entry `[t][q]` of the matrix that iteration `(i, j)` hands
to `gemm` is the unfold entry, whatever the workspace held before. -/
theorem forward_gemm_b_entry {α : Type} [Zero α] (l : Layer α) (net : Network α)
    (hg : 1 ≤ l.groups) (hgc : l.groups ∣ l.c)
    (hsize : l.size ≠ 1 ∨ (l.stride = 1 ∧ l.pad = 0 ∧ l.dilate_rate = 1 ∧ 0 ≤ l.w))
    (hoh : l.out_h = dilated_conv_out_height l) (how : l.out_w = dilated_conv_out_width l)
    (i j t q : Int) (ht0 : 0 ≤ t) (ht1 : t < (l.size * l.size * l.c).tdiv l.groups)
    (hq0 : 0 ≤ q) (hq1 : q < l.out_h * l.out_w) (ws : Buf α) :
    forward_gemm_b l net i j ws (t * (l.out_h * l.out_w) + q)
      = unfold_entry (shift net.input (input_offset l i j)) l.h l.w l.size l.stride
          l.pad l.dilate_rate l.out_w t q := by
  by_cases hs : l.size = 1
  · rcases hsize with hne | ⟨hst, hp, hd, hw⟩
    · exact absurd hs hne
    · obtain ⟨eh, ew⟩ := pointwise_out_dims l hs hst hp hd
      rw [eh] at hoh
      rw [ew] at how
      unfold forward_gemm_b
      simp only [if_pos hs]
      rw [hoh, how] at hq1 ⊢
      rw [hs, hst, hp, hd, Int.mul_comm l.h l.w]
      rw [Int.mul_comm l.h l.w] at hq1
      exact pointwise_unfold_entry _ l.h l.w t q hw hq0 hq1
  · have hg0 : l.groups ≠ 0 := by omega
    obtain ⟨cg, hcg⟩ := hgc
    have ecg : l.c.tdiv l.groups = cg := by
      rw [hcg, Int.mul_comm, Int.mul_tdiv_cancel _ hg0]
    have ek : (l.size * l.size * l.c).tdiv l.groups = cg * l.size * l.size := by
      rw [hcg, show l.size * l.size * (l.groups * cg) = (cg * l.size * l.size) * l.groups
        by ring, Int.mul_tdiv_cancel _ hg0]
    unfold forward_gemm_b
    simp only [if_neg hs]
    exact im2col_at _ _ _ _ _ _ _ _ _ l.out_h l.out_w t q hoh how ht0
      (by rw [ecg, ← ek]; exact ht1) hq0 hq1

/-- When `groups` divides `c` and either `size != 1` or the kernel is 1x1 with stride 1,
no padding and no dilation, the inner product that iteration `(i, j)` hands to the
output is the sum over the taps of weight times unfold entry, whatever the workspace
held before. -/
theorem forward_dot_unfold {α : Type} [CommRing α] (l : Layer α) (net : Network α)
    (hg : 1 ≤ l.groups) (hgc : l.groups ∣ l.c)
    (hsize : l.size ≠ 1 ∨ (l.stride = 1 ∧ l.pad = 0 ∧ l.dilate_rate = 1 ∧ 0 ≤ l.w))
    (hoh : l.out_h = dilated_conv_out_height l) (how : l.out_w = dilated_conv_out_width l)
    (i j r q : Int) (hq0 : 0 ≤ q) (hq1 : q < l.out_w * l.out_h) (ws : Buf α) :
    gemm_dot 0 0 ((l.size * l.size * l.c).tdiv l.groups)
        (shift l.weights (weight_offset l j)) ((l.size * l.size * l.c).tdiv l.groups)
        (forward_gemm_b l net i j ws) (l.out_w * l.out_h) r q
      = ∑ t in Finset.range ((l.size * l.size * l.c).tdiv l.groups).toNat,
          l.weights (weight_offset l j
              + (r * (l.size * l.size * l.c).tdiv l.groups + (t : Int)))
            * unfold_entry (shift net.input (input_offset l i j)) l.h l.w l.size l.stride
                l.pad l.dilate_rate l.out_w (t : Int) q := by
  rw [gemm_dot_nn]
  apply Finset.sum_congr rfl
  intro t ht
  have ht1 : (t : Int) < (l.size * l.size * l.c).tdiv l.groups := by
    have := Finset.mem_range.mp ht
    omega
  congr 1
  rw [Int.mul_comm l.out_w l.out_h]
  rw [Int.mul_comm l.out_w l.out_h] at hq1
  exact forward_gemm_b_entry l net hg hgc hsize hoh how i j (t : Int) q (by omega) ht1
    hq0 hq1 ws

/-- Element `[r][q]` of the output slice of `(i, j)` is element `q` of channel
`j*(n/groups) + r` of batch element `i`, and lies inside the output buffer. -/
theorem output_index_channel {α : Type} (l : Layer α) (hgn : l.groups ∣ l.n)
    (i j r q : Int) (hi0 : 0 ≤ i) (hi1 : i < l.batch) (hj0 : 0 ≤ j) (hj1 : j < l.groups)
    (hr0 : 0 ≤ r) (hr1 : r < l.n.tdiv l.groups) (hq0 : 0 ≤ q) (hq1 : q < l.out_h * l.out_w) :
    output_offset l i j + (r * (l.out_h * l.out_w) + q)
        = (i * l.n + (j * l.n.tdiv l.groups + r)) * (l.out_h * l.out_w) + q ∧
      0 ≤ j * l.n.tdiv l.groups + r ∧ j * l.n.tdiv l.groups + r < l.n ∧
      0 ≤ output_offset l i j + (r * (l.out_h * l.out_w) + q) ∧
      output_offset l i j + (r * (l.out_h * l.out_w) + q) < l.out_h * l.out_w * l.n * l.batch := by
  have hn : l.n = l.groups * l.n.tdiv l.groups := by
    have := Int.tdiv_mul_cancel hgn
    linarith
  rw [output_offset_eq]
  generalize l.n.tdiv l.groups = m at hn hr1 ⊢
  generalize l.out_h * l.out_w = P at hq1 ⊢
  have hm : 1 ≤ m := by omega
  have hP : 1 ≤ P := by omega
  have hjm : 0 ≤ j * m := Int.mul_nonneg hj0 (by omega)
  have hjm1 : (j + 1) * m ≤ l.groups * m := Int.mul_le_mul_of_nonneg_right (by omega) (by omega)
  have hn0 : 0 ≤ l.n := by rw [hn]; exact Int.mul_nonneg (by omega) (by omega)
  have hin : 0 ≤ i * l.n := Int.mul_nonneg hi0 hn0
  have hin1 : (i + 1) * l.n ≤ l.batch * l.n := Int.mul_le_mul_of_nonneg_right (by omega) hn0
  have hch1 : j * m + r < l.n := by rw [hn]; linarith
  have e1 : 0 + (i * l.groups + j) * (P * m) + (r * P + q) = (i * l.n + (j * m + r)) * P + q := by
    rw [hn]; ring
  have hlo : 0 ≤ (i * l.n + (j * m + r)) * P := Int.mul_nonneg (by omega) (by omega)
  have hhi : (i * l.n + (j * m + r) + 1) * P ≤ (l.batch * l.n) * P :=
    Int.mul_le_mul_of_nonneg_right (by linarith) (by omega)
  refine ⟨e1, by omega, hch1, ?_, ?_⟩
  · rw [e1]; omega
  · rw [e1]
    have : P * l.n * l.batch = (l.batch * l.n) * P := by ring
    rw [this]
    linarith

/-- C10, as stated, fails on the 1x1-kernel, stride-2 layer (batch 1, a 3x3x1 input
`1, ..., 9`, one filter with weight 1, no padding, no dilation, 2x2 output): the output
at position (1, 1) is `4`, the fourth element of the input read as a dense matrix, not
the stated `9`, the input at row 2, column 2. -/
theorem forward_stated_output_counterexample :
    (forward_dilated_conv_layer idle_collaborators bypass_test_layer bypass_test_net).1.output
        (output_offset bypass_test_layer 0 0
          + (0 * (bypass_test_layer.out_h * bypass_test_layer.out_w) + 3)) = 4 ∧
    stated_output bypass_test_layer bypass_test_net 0 0 0 3 = 9 ∧
    (forward_dilated_conv_layer idle_collaborators bypass_test_layer bypass_test_net).1.output
        (output_offset bypass_test_layer 0 0
          + (0 * (bypass_test_layer.out_h * bypass_test_layer.out_w) + 3))
      ≠ stated_output bypass_test_layer bypass_test_net 0 0 0 3 := by
  decide

/-- C10 (amended). For every layer with batch_normalize = 0 and xnor = 0 whose derived
fields are those set at construction (`out_h`, `out_w`, `outputs = out_h*out_w*n`):
the output of `forward_dilated_conv_layer` does not depend on the previous contents
of the output buffer; and when moreover groups >= 1 divides both c and n and either
size != 1, or size = 1 with stride = 1, pad = 0, dilate_rate = 1 and w >= 0, for
every batch element `i`, group `j`, output channel `r < n/groups` of
that group and output position `q < out_h*out_w` the produced value is
`activation(sum over t < size*size*c/groups of weight_slice_j[r][t] * B_ij[t][q]
+ biases[j*(n/groups) + r])`, where `B_ij` is the unfolded matrix of the input slice
of `(i, j)`. -/
theorem forward_output_value {α : Type} [CommRing α] (E : Collaborators α) (l : Layer α)
    (net : Network α) (hbn : l.batch_normalize = 0) (hx : l.xnor = 0)
    (hout : l.outputs = l.out_h * l.out_w * l.n)
    (hoh : l.out_h = dilated_conv_out_height l) (how : l.out_w = dilated_conv_out_width l) :
    (∀ (prior : Buf α) (p : Int), 0 ≤ p → p < l.outputs * l.batch →
      (forward_dilated_conv_layer E { l with output := prior } net).1.output p
        = (forward_dilated_conv_layer E l net).1.output p) ∧
    (1 ≤ l.groups → l.groups ∣ l.c → l.groups ∣ l.n →
      (l.size ≠ 1 ∨ (l.stride = 1 ∧ l.pad = 0 ∧ l.dilate_rate = 1 ∧ 0 ≤ l.w)) →
      ∀ i j r q, 0 ≤ i → i < l.batch → 0 ≤ j → j < l.groups →
        0 ≤ r → r < l.n.tdiv l.groups → 0 ≤ q → q < l.out_h * l.out_w →
        (forward_dilated_conv_layer E l net).1.output
            (output_offset l i j + (r * (l.out_h * l.out_w) + q))
          = stated_output l net i j r q) := by
  constructor
  · intro prior p hp0 hp1
    have e1 : (forward_dilated_conv_layer E { l with output := prior } net).1.output
        = activate_array
          (add_bias
            (loop l.batch
              (fun i s => loop l.groups (fun j s => forward_group_step l net i j s) s)
              { output := fill_cpu (l.outputs * l.batch) 0 prior 1,
                workspace := net.workspace }).output
            l.biases l.batch l.n (l.out_h * l.out_w))
          (l.outputs * l.batch) l.activation :=
      forward_output_eq E { l with output := prior } net hx hbn
    have e2 := forward_output_eq E l net hx hbn
    rw [e1, e2]
    simp only [activate_array_at, hp0, hp1, and_self, if_true]
    congr 1
    apply add_bias_agree
    refine forward_loops_agree l net _ _ p ?_ ?_
    · rfl
    · simp only [fill_cpu_unit, hp0, hp1, and_self, if_true]
  · intro hg hgc hgn hsize i j r q hi0 hi1 hj0 hj1 hr0 hr1 hq0 hq1
    obtain ⟨hidx, hch0, hch1, hp0, hp1⟩ :=
      output_index_channel l hgn i j r q hi0 hi1 hj0 hj1 hr0 hr1 hq0 hq1
    have hp1' : output_offset l i j + (r * (l.out_h * l.out_w) + q) < l.outputs * l.batch := by
      rw [hout]; exact hp1
    rw [forward_output_eq E l net hx hbn, activate_array_at, if_pos ⟨hp0, hp1'⟩]
    unfold stated_output
    congr 1
    rw [hidx, add_bias_at _ _ _ _ _ i _ q hi0 hi1 hch0 hch1 hq0 hq1, ← hidx]
    congr 1
    have hq1w : q < l.out_w * l.out_h := by rw [Int.mul_comm]; exact hq1
    have hcomm : l.out_h * l.out_w = l.out_w * l.out_h := Int.mul_comm _ _
    rw [hcomm] at hp0 hp1' ⊢
    rw [forward_loops_output_at l net _ i j r q _ hi0 hi1 hj0 hj1 hr0 hr1 hq0 hq1w
      (fun ws => forward_dot_unfold l net hg hgc hsize hoh how i j r q hq0 hq1w ws)]
    simp only [fill_cpu_unit, hp0, hp1', and_self, if_true, zero_add]

theorem forward_output_value_witness :
    (stated_output grouped_test_layer ramp_net 1 1 1 4 = 9276 ∧
      (forward_dilated_conv_layer idle_collaborators grouped_test_layer ramp_net).1.output
          (output_offset grouped_test_layer 1 1
            + (1 * (grouped_test_layer.out_h * grouped_test_layer.out_w) + 4))
        = stated_output grouped_test_layer ramp_net 1 1 1 4) ∧
    (stated_output pointwise_gradient_layer ramp_net 1 1 1 3 = 452 ∧
      (forward_dilated_conv_layer idle_collaborators pointwise_gradient_layer
          ramp_net).1.output
          (output_offset pointwise_gradient_layer 1 1
            + (1 * (pointwise_gradient_layer.out_h * pointwise_gradient_layer.out_w) + 3))
        = stated_output pointwise_gradient_layer ramp_net 1 1 1 3) :=
  ⟨⟨by decide,
    (forward_output_value idle_collaborators grouped_test_layer ramp_net rfl rfl (by decide)
      (by decide) (by decide)).2 (by decide) (by decide) (by decide) (by decide) 1 1 1 4
      (by decide) (by decide) (by decide) (by decide) (by decide) (by decide) (by decide)
      (by decide)⟩,
   ⟨by decide,
    (forward_output_value idle_collaborators pointwise_gradient_layer ramp_net rfl rfl
      (by decide) (by decide) (by decide)).2 (by decide) (by decide) (by decide) (by decide)
      1 1 1 3 (by decide) (by decide) (by decide) (by decide) (by decide) (by decide)
      (by decide) (by decide)⟩⟩

/-- C8. For every layer with groups >= 1 dividing n, with `m = n/groups` and
`p = out_h*out_w`, the output spans written by `forward_dilated_conv_layer`,
`[(i*groups + j)*p*m, (i*groups + j + 1)*p*m)` for batch element `i < batch` and
group `j < groups`, are pairwise disjoint, the spans of one batch element are
consecutive in `j` and together are exactly that element's region
`[i*n*p, (i+1)*n*p)`, and all spans together cover exactly the
`batch*out_h*out_w*n` elements of the output buffer. -/
theorem output_spans_partition {α : Type} [CommRing α] (l : Layer α) (hg : 1 ≤ l.groups)
    (hdvd : l.groups ∣ l.n) (hbatch : 0 ≤ l.batch) :
    (∀ i j, output_offset l i j = (i * l.groups + j) * (l.out_h * l.out_w) * l.n.tdiv l.groups ∧
      output_offset l i j + l.out_h * l.out_w * l.n.tdiv l.groups
        = (i * l.groups + j + 1) * (l.out_h * l.out_w) * l.n.tdiv l.groups) ∧
    (∀ (net : Network α) i j (s : ForwardState α) x,
      ¬ (output_offset l i j ≤ x ∧
          x < output_offset l i j + l.out_h * l.out_w * l.n.tdiv l.groups) →
      (forward_group_step l net i j s).output x = s.output x) ∧
    (∀ i j i' j' x, 0 ≤ j → j < l.groups → 0 ≤ j' → j' < l.groups →
      output_offset l i j ≤ x →
      x < output_offset l i j + l.out_h * l.out_w * l.n.tdiv l.groups →
      output_offset l i' j' ≤ x →
      x < output_offset l i' j' + l.out_h * l.out_w * l.n.tdiv l.groups →
      i = i' ∧ j = j') ∧
    (∀ i j, output_offset l i (j + 1)
      = output_offset l i j + l.out_h * l.out_w * l.n.tdiv l.groups) ∧
    (∀ i x, (i * (l.n * (l.out_h * l.out_w)) ≤ x ∧ x < (i + 1) * (l.n * (l.out_h * l.out_w)))
      ↔ ∃ j, 0 ≤ j ∧ j < l.groups ∧ output_offset l i j ≤ x ∧
          x < output_offset l i j + l.out_h * l.out_w * l.n.tdiv l.groups) ∧
    (∀ x, (0 ≤ x ∧ x < l.batch * l.out_h * l.out_w * l.n)
      ↔ ∃ i j, 0 ≤ i ∧ i < l.batch ∧ 0 ≤ j ∧ j < l.groups ∧ output_offset l i j ≤ x ∧
          x < output_offset l i j + l.out_h * l.out_w * l.n.tdiv l.groups) := by
  have hn : l.n = l.groups * l.n.tdiv l.groups := by
    have := Int.tdiv_mul_cancel hdvd
    linarith
  generalize hm : l.n.tdiv l.groups = m at hn ⊢
  generalize hL : l.out_h * l.out_w * m = L
  have hoff : ∀ i j, output_offset l i j = (i * l.groups + j) * L := by
    intro i j
    rw [output_offset_eq, hm, hL]
    ring
  have helem : ∀ i x, (i * (l.n * (l.out_h * l.out_w)) ≤ x
      ∧ x < (i + 1) * (l.n * (l.out_h * l.out_w)))
      ↔ ∃ j, 0 ≤ j ∧ j < l.groups ∧ output_offset l i j ≤ x ∧ x < output_offset l i j + L := by
    intro i x
    have e1 : i * (l.n * (l.out_h * l.out_w)) = i * l.groups * L := by
      rw [hn, ← hL]; ring
    have e2 : (i + 1) * (l.n * (l.out_h * l.out_w)) = i * l.groups * L + l.groups * L := by
      rw [hn, ← hL]; ring
    rw [e1, e2, block_tile (i * l.groups * L) L l.groups x (by omega)]
    constructor
    · rintro ⟨j, h0, h1, h2, h3⟩
      exact ⟨j, h0, h1, by rw [hoff]; linarith, by rw [hoff]; linarith⟩
    · rintro ⟨j, h0, h1, h2, h3⟩
      rw [hoff] at h2 h3
      exact ⟨j, h0, h1, by linarith, by linarith⟩
  refine ⟨fun i j => ?_, fun net i j s x hx => ?_, ?_, fun i j => ?_, helem, fun x => ?_⟩
  · rw [hoff, ← hL]
    constructor <;> ring
  · apply forward_group_step_frame
    rw [hm, hL]
    exact hx
  · intro i j i' j' x hj0 hj1 hj0' hj1' h0 h1 h0' h1'
    rw [hoff] at h0 h1 h0' h1'
    have := block_unique 0 L x (i * l.groups + j) (i' * l.groups + j') (by linarith)
      (by linarith) (by linarith) (by linarith)
    exact mixed_radix_unique l.groups i i' j j' hj0 hj1 hj0' hj1' this
  · rw [hoff, hoff]
    ring
  · have e : l.batch * l.out_h * l.out_w * l.n = 0 + l.batch * (l.groups * L) := by
      rw [hn, ← hL]; ring
    rw [e, block_tile 0 (l.groups * L) l.batch x hbatch]
    have hnp : l.n * (l.out_h * l.out_w) = l.groups * L := by
      rw [hn, ← hL]; ring
    constructor
    · rintro ⟨i, hi0, hi1, h2, h3⟩
      have := (helem i x).mp ⟨by rw [hnp]; linarith, by rw [hnp]; linarith⟩
      obtain ⟨j, hj0, hj1, h4, h5⟩ := this
      exact ⟨i, j, hi0, hi1, hj0, hj1, h4, h5⟩
    · rintro ⟨i, j, hi0, hi1, hj0, hj1, h4, h5⟩
      have := (helem i x).mpr ⟨j, hj0, hj1, h4, h5⟩
      rw [hnp] at this
      exact ⟨i, hi0, hi1, by linarith [this.1], by linarith [this.2]⟩

theorem output_spans_partition_witness :
    output_offset grouped_test_layer 1 (0 + 1)
      = output_offset grouped_test_layer 1 0
        + grouped_test_layer.out_h * grouped_test_layer.out_w
          * grouped_test_layer.n.tdiv grouped_test_layer.groups :=
  (output_spans_partition grouped_test_layer (by decide) (by decide) (by decide)).2.2.2.1 1 0

/-- C9. For every layer with groups >= 1 dividing both c and n (and
`nweights = (c/groups)*n*size*size` as set at construction), the weight offset
`j*nweights/groups` equals `j*(nweights/groups)`, each weight slice has exactly
`m*k = (n/groups)*(size*size*c/groups) = nweights/groups` elements and the slices
tile `[0, nweights)`; the input offset `(i*groups + j)*c/groups*h*w` equals
`i*(c*h*w) + j*(c/groups)*h*w`, and the `(c/groups)*h*w`-element input slices of
batch element `i` tile that element's `c*h*w` input region without overlap. -/
theorem slice_offsets_partition {α : Type} (l : Layer α) (hg : 1 ≤ l.groups)
    (hc : l.groups ∣ l.c) (hn : l.groups ∣ l.n)
    (hnw : l.nweights = l.c.tdiv l.groups * l.n * l.size * l.size) :
    (∀ j, weight_offset l j = j * l.nweights.tdiv l.groups) ∧
    (l.n.tdiv l.groups * (l.size * l.size * l.c).tdiv l.groups = l.nweights.tdiv l.groups) ∧
    (∀ x, (0 ≤ x ∧ x < l.nweights)
      ↔ ∃ j, 0 ≤ j ∧ j < l.groups ∧ weight_offset l j ≤ x ∧
          x < weight_offset l j + l.n.tdiv l.groups * (l.size * l.size * l.c).tdiv l.groups) ∧
    (∀ j j' x, weight_offset l j ≤ x →
      x < weight_offset l j + l.n.tdiv l.groups * (l.size * l.size * l.c).tdiv l.groups →
      weight_offset l j' ≤ x →
      x < weight_offset l j' + l.n.tdiv l.groups * (l.size * l.size * l.c).tdiv l.groups →
      j = j') ∧
    (∀ i j, input_offset l i j
      = i * (l.c * l.h * l.w) + j * l.c.tdiv l.groups * l.h * l.w) ∧
    (∀ i x, (i * (l.c * l.h * l.w) ≤ x ∧ x < (i + 1) * (l.c * l.h * l.w))
      ↔ ∃ j, 0 ≤ j ∧ j < l.groups ∧ input_offset l i j ≤ x ∧
          x < input_offset l i j + l.c.tdiv l.groups * l.h * l.w) ∧
    (∀ i j j' x, input_offset l i j ≤ x →
      x < input_offset l i j + l.c.tdiv l.groups * l.h * l.w →
      input_offset l i j' ≤ x →
      x < input_offset l i j' + l.c.tdiv l.groups * l.h * l.w →
      j = j') := by
  have hg0 : l.groups ≠ 0 := by omega
  obtain ⟨cg, hcg⟩ := hc
  obtain ⟨m, hm⟩ := hn
  have ecg : l.c.tdiv l.groups = cg := by
    rw [hcg, Int.mul_comm, Int.mul_tdiv_cancel _ hg0]
  have em : l.n.tdiv l.groups = m := by
    rw [hm, Int.mul_comm, Int.mul_tdiv_cancel _ hg0]
  have enw : l.nweights = (cg * m * l.size * l.size) * l.groups := by
    rw [hnw, ecg, hm]; ring
  have eslice : l.nweights.tdiv l.groups = cg * m * l.size * l.size := by
    rw [enw, Int.mul_tdiv_cancel _ hg0]
  have ek : (l.size * l.size * l.c).tdiv l.groups = l.size * l.size * cg := by
    rw [hcg, show l.size * l.size * (l.groups * cg) = (l.size * l.size * cg) * l.groups by ring,
      Int.mul_tdiv_cancel _ hg0]
  have ewoff : ∀ j, weight_offset l j = 0 + j * (cg * m * l.size * l.size) := by
    intro j
    unfold weight_offset
    rw [enw, show j * (cg * m * l.size * l.size * l.groups)
      = (j * (cg * m * l.size * l.size)) * l.groups by ring, Int.mul_tdiv_cancel _ hg0]
    ring
  have eioff : ∀ i j, input_offset l i j
      = i * l.groups * (cg * l.h * l.w) + j * (cg * l.h * l.w) := by
    intro i j
    unfold input_offset
    rw [hcg, show (i * l.groups + j) * (l.groups * cg)
      = ((i * l.groups + j) * cg) * l.groups by ring, Int.mul_tdiv_cancel _ hg0]
    ring
  have emk : m * (l.size * l.size * cg) = cg * m * l.size * l.size := by ring
  refine ⟨fun j => ?_, ?_, fun x => ?_, ?_, fun i j => ?_, fun i x => ?_, ?_⟩
  · rw [ewoff, eslice]; ring
  · rw [em, ek, eslice, emk]
  · rw [em, ek, emk]
    have := block_tile 0 (cg * m * l.size * l.size) l.groups x (by omega)
    rw [show (0 : Int) + l.groups * (cg * m * l.size * l.size) = l.nweights by rw [enw]; ring]
      at this
    rw [this]
    constructor
    · rintro ⟨j, h0, h1, h2, h3⟩
      exact ⟨j, h0, h1, by rw [ewoff]; exact h2, by rw [ewoff]; exact h3⟩
    · rintro ⟨j, h0, h1, h2, h3⟩
      rw [ewoff] at h2 h3
      exact ⟨j, h0, h1, h2, h3⟩
  · intro j j' x h0 h1 h0' h1'
    rw [em, ek, emk, ewoff] at h1 h1'
    rw [ewoff] at h0 h0'
    exact block_unique 0 (cg * m * l.size * l.size) x j j' h0 h1 h0' h1'
  · rw [eioff, ecg, hcg]; ring
  · rw [ecg]
    have := block_tile (i * l.groups * (cg * l.h * l.w)) (cg * l.h * l.w) l.groups x (by omega)
    rw [show i * (l.c * l.h * l.w) = i * l.groups * (cg * l.h * l.w) by rw [hcg]; ring,
      show (i + 1) * (l.c * l.h * l.w)
        = i * l.groups * (cg * l.h * l.w) + l.groups * (cg * l.h * l.w) by rw [hcg]; ring,
      this]
    constructor
    · rintro ⟨j, h0, h1, h2, h3⟩
      exact ⟨j, h0, h1, by rw [eioff]; exact h2, by rw [eioff]; exact h3⟩
    · rintro ⟨j, h0, h1, h2, h3⟩
      rw [eioff] at h2 h3
      exact ⟨j, h0, h1, h2, h3⟩
  · intro i j j' x h0 h1 h0' h1'
    rw [ecg, eioff] at h1 h1'
    rw [eioff] at h0 h0'
    exact block_unique (i * l.groups * (cg * l.h * l.w)) (cg * l.h * l.w) x j j' h0 h1 h0' h1'

theorem slice_offsets_partition_witness :
    input_offset grouped_test_layer 1 1
      = 1 * (grouped_test_layer.c * grouped_test_layer.h * grouped_test_layer.w)
        + 1 * grouped_test_layer.c.tdiv grouped_test_layer.groups * grouped_test_layer.h
          * grouped_test_layer.w :=
  (slice_offsets_partition grouped_test_layer (by decide) (by decide) (by decide)
    (by decide)).2.2.2.2.1 1 1

/-- Without XNOR and without batch normalization the output of the forward pass
depends neither on the binarization collaborator nor on the contents of
`binary_weights`. -/
theorem forward_ignores_binarization {α : Type} [CommRing α] (E E' : Collaborators α)
    (l : Layer α) (net : Network α) (bw : Buf α) (hx : l.xnor = 0)
    (hbn : l.batch_normalize = 0) :
    (forward_dilated_conv_layer E { l with binary_weights := bw } net).1.output
      = (forward_dilated_conv_layer E' l net).1.output := by
  rw [forward_output_eq E' l net hx hbn]
  exact forward_output_eq E { l with binary_weights := bw } net hx hbn

/-! ## The `size == 1` bypass, the input gradient, and binary weights -/

/-- C5 (code defect). On the 1x1-kernel, stride-2 layer with the 3x3 input `1..9`, the
matrix handed to `gemm` by the bypass has entry `[0][1*out_w + 1] = 4` (the fourth
input element), the unfold matrix has `9` there (the input at row 2, column 2), and
the layer outputs `4` at output position (1, 1). -/
theorem bypass_differs_from_unfold :
    forward_gemm_b bypass_test_layer bypass_test_net 0 0 bypass_test_net.workspace
        (0 * (bypass_test_layer.out_w * bypass_test_layer.out_h)
          + (1 * bypass_test_layer.out_w + 1)) = 4 ∧
    unfold_entry (shift bypass_test_net.input (input_offset bypass_test_layer 0 0))
        bypass_test_layer.h bypass_test_layer.w bypass_test_layer.size
        bypass_test_layer.stride bypass_test_layer.pad bypass_test_layer.dilate_rate
        bypass_test_layer.out_w 0 (1 * bypass_test_layer.out_w + 1) = 9 ∧
    unfold_tap (shift bypass_test_net.input (input_offset bypass_test_layer 0 0))
        bypass_test_layer.h bypass_test_layer.w bypass_test_layer.stride
        bypass_test_layer.pad bypass_test_layer.dilate_rate 0 0 0 1 1 = 9 ∧
    (forward_dilated_conv_layer idle_collaborators bypass_test_layer bypass_test_net).1.output
        (1 * bypass_test_layer.out_w + 1) = 4 := by
  decide

/-- C6 (code defect). With `net.delta` holding 5 beforehand, weight 2 and gradient 3,
the 1x1-kernel layer leaves `net.delta[0] = 6 = 2*3`, not `5 + 2*3 = 11`; the
3x3-kernel layer with weight 1 and gradient 3 leaves `net.delta[0] = 8 = 5 + 1*3`. -/
theorem backward_pointwise_overwrites :
    ((backward_dilated_conv_layer idle_collaborators pointwise_backward_layer
        accumulated_delta_net).2.delta.map (fun d => d 0)) = some 6 ∧
    ((backward_dilated_conv_layer idle_collaborators kernel3_backward_layer
        accumulated_delta_net).2.delta.map (fun d => d 0)) = some 8 := by
  decide

/-- C7 (code defect). On the layer made with `binary = 1`, `xnor = 0`, weights `5, -3`
and input `1, 0`, the forward pass outputs `5`, the product with the full-precision
weights; the binarization collaborator is never consulted (`binary_weights` stays
zero), and the product with its sign-quantized copy `4, -4` would be `4`.  The
caller's layer holds the full-precision weights afterwards. -/
theorem forward_binary_multiplies_full_precision :
    (forward_dilated_conv_layer sign_collaborators binary_test_layer
        binary_test_net).1.output 0 = 5 ∧
    (forward_dilated_conv_layer sign_collaborators binary_test_layer
        binary_test_net).1.binary_weights 0 = 0 ∧
    gemm_dot 0 0 2
        (sign_collaborators.binarize_weights binary_test_layer.weights 1 2
          binary_test_layer.binary_weights) 2
        (forward_gemm_b binary_test_layer binary_test_net 0 0 binary_test_net.workspace) 1
        0 0 = 4 ∧
    (forward_dilated_conv_layer sign_collaborators binary_test_layer
        binary_test_net).1.weights 0 = 5 ∧
    (forward_dilated_conv_layer sign_collaborators binary_test_layer
        binary_test_net).1.weights 1 = -3 := by
  decide

/-! ## Span of the last output position -/

/-- The output dimension `x/stride + 1` of a non-negative slack `x`: it is at least one,
the last position fits, one more would not. -/
theorem out_dim_bounds (x s : Int) (hx : 0 ≤ x) (hs : 1 ≤ s) :
    1 ≤ x.tdiv s + 1 ∧ (x.tdiv s + 1 - 1) * s ≤ x ∧ x < (x.tdiv s + 1) * s := by
  rw [Int.tdiv_eq_ediv hx (by omega)]
  have h0 : 0 ≤ x / s := Int.ediv_nonneg hx (by omega)
  have h1 : s * (x / s) ≤ x := Int.mul_ediv_self_le (by omega)
  have h2 : x < s * (x / s) + s := Int.lt_mul_ediv_self_add (by omega)
  refine ⟨by omega, ?_, ?_⟩
  · have : (x / s + 1 - 1) * s = s * (x / s) := by ring
    rw [this]; exact h1
  · have : (x / s + 1) * s = s * (x / s) + s := by ring
    rw [this]; exact h2

/-- C14. For stride >= 1, size >= 1, dilate_rate >= 1, pad >= 0 and
`in_dim + 2*pad >= dsize` with `dsize = (dilate_rate-1)*(size+1) + size`, the value `out`
returned by `dilated_conv_out_height` (`in_dim = h`) or `dilated_conv_out_width`
(`in_dim = w`) satisfies `out >= 1` and
`(out-1)*stride + dsize <= in_dim + 2*pad < out*stride + dsize`. -/
theorem out_dims_last_span {α : Type} (l : Layer α) (hstride : 1 ≤ l.stride)
    (_hsize : 1 ≤ l.size) (_hdil : 1 ≤ l.dilate_rate) (_hpad : 0 ≤ l.pad) :
    ((l.dilate_rate - 1) * (l.size + 1) + l.size ≤ l.h + 2 * l.pad →
      1 ≤ dilated_conv_out_height l ∧
      (dilated_conv_out_height l - 1) * l.stride
          + ((l.dilate_rate - 1) * (l.size + 1) + l.size) ≤ l.h + 2 * l.pad ∧
      l.h + 2 * l.pad
        < dilated_conv_out_height l * l.stride
          + ((l.dilate_rate - 1) * (l.size + 1) + l.size)) ∧
    ((l.dilate_rate - 1) * (l.size + 1) + l.size ≤ l.w + 2 * l.pad →
      1 ≤ dilated_conv_out_width l ∧
      (dilated_conv_out_width l - 1) * l.stride
          + ((l.dilate_rate - 1) * (l.size + 1) + l.size) ≤ l.w + 2 * l.pad ∧
      l.w + 2 * l.pad
        < dilated_conv_out_width l * l.stride
          + ((l.dilate_rate - 1) * (l.size + 1) + l.size)) := by
  constructor
  · intro hh
    have := out_dim_bounds (l.h + 2 * l.pad - ((l.dilate_rate - 1) * (l.size + 1) + l.size))
      l.stride (by linarith) hstride
    unfold dilated_conv_out_height
    simp only []
    exact ⟨this.1, by linarith [this.2.1], by linarith [this.2.2]⟩
  · intro hw
    have := out_dim_bounds (l.w + 2 * l.pad - ((l.dilate_rate - 1) * (l.size + 1) + l.size))
      l.stride (by linarith) hstride
    unfold dilated_conv_out_width
    simp only []
    exact ⟨this.1, by linarith [this.2.1], by linarith [this.2.2]⟩

theorem out_dims_last_span_witness :
    1 ≤ dilated_conv_out_height test_new_dconv_layer ∧
      (dilated_conv_out_height test_new_dconv_layer - 1) * test_new_dconv_layer.stride
          + ((test_new_dconv_layer.dilate_rate - 1) * (test_new_dconv_layer.size + 1)
            + test_new_dconv_layer.size)
        ≤ test_new_dconv_layer.h + 2 * test_new_dconv_layer.pad ∧
      test_new_dconv_layer.h + 2 * test_new_dconv_layer.pad
        < dilated_conv_out_height test_new_dconv_layer * test_new_dconv_layer.stride
          + ((test_new_dconv_layer.dilate_rate - 1) * (test_new_dconv_layer.size + 1)
            + test_new_dconv_layer.size) :=
  (out_dims_last_span test_new_dconv_layer (by decide) (by decide) (by decide)
    (by decide)).1 (by decide)

/-! ## Workspace size -/

theorem to_size_t_mul_left (a b : Int) : to_size_t (to_size_t a * b) = to_size_t (a * b) := by
  unfold to_size_t
  rw [Int.mul_emod, Int.emod_emod_of_dvd _ (dvd_refl _), ← Int.mul_emod]

theorem to_size_t_mul_right (a b : Int) : to_size_t (a * to_size_t b) = to_size_t (a * b) := by
  unfold to_size_t
  rw [Int.mul_emod, Int.emod_emod_of_dvd _ (dvd_refl _), ← Int.mul_emod]

theorem to_size_t_of_fits (a : Int) (h0 : 0 ≤ a) (h1 : a < 2 ^ 64) : to_size_t a = a := by
  unfold to_size_t
  exact Int.emod_eq_of_lt h0 h1

/-- Without overflow, `get_workspace_size` is `out_h*out_w*size*size*c/groups*4`. -/
theorem get_workspace_size_eq {α : Type} (l : Layer α) (hg : 1 ≤ l.groups)
    (hg64 : l.groups < 2 ^ 64) (hX : 0 ≤ l.out_h * l.out_w * l.size * l.size * l.c)
    (hfit : l.out_h * l.out_w * l.size * l.size * l.c * 4 < 2 ^ 64) :
    get_workspace_size l = l.out_h * l.out_w * l.size * l.size * l.c / l.groups * 4 := by
  unfold get_workspace_size
  simp only []
  simp only [to_size_t_mul_left, to_size_t_mul_right]
  rw [to_size_t_of_fits _ hX (by omega), to_size_t_of_fits l.groups (by omega) hg64]
  have hq0 : 0 ≤ l.out_h * l.out_w * l.size * l.size * l.c / l.groups :=
    Int.ediv_nonneg hX (by omega)
  have hq1 : l.out_h * l.out_w * l.size * l.size * l.c / l.groups
      ≤ l.out_h * l.out_w * l.size * l.size * l.c :=
    Int.ediv_le_self _ hX
  exact to_size_t_of_fits _ (by omega) (by omega)

/-- C12. For every non-negative geometry with groups >= 1, the CPU-path value of
`get_workspace_size` (in bytes, without overflow of `size_t`) is at least
`sizeof(float)` times the element count of one group's unfolded matrix,
`(c/groups)*size*size` rows by `out_h*out_w` columns, and at least
`sizeof(float) * k * (out_h*out_w)` for the contraction length `k = size*size*c/groups`
that forward passes to `gemm`; when groups divides c it equals
`sizeof(float) * out_h*out_w*size*size*(c/groups)`. -/
theorem workspace_size_bounds {α : Type} (l : Layer α) (hoh : 0 ≤ l.out_h) (how : 0 ≤ l.out_w)
    (hsize : 0 ≤ l.size) (hc : 0 ≤ l.c) (hg : 1 ≤ l.groups) (hg64 : l.groups < 2 ^ 64)
    (hfit : l.out_h * l.out_w * l.size * l.size * l.c * 4 < 2 ^ 64) :
    4 * (l.c.tdiv l.groups * l.size * l.size * (l.out_h * l.out_w)) ≤ get_workspace_size l ∧
    4 * ((l.size * l.size * l.c).tdiv l.groups * (l.out_h * l.out_w)) ≤ get_workspace_size l ∧
    (l.groups ∣ l.c →
      get_workspace_size l = 4 * (l.out_h * l.out_w * l.size * l.size * l.c.tdiv l.groups)) := by
  have hP : 0 ≤ l.out_h * l.out_w := Int.mul_nonneg hoh how
  have hss : 0 ≤ l.size * l.size := Int.mul_nonneg hsize hsize
  have hPss : 0 ≤ l.out_h * l.out_w * (l.size * l.size) := Int.mul_nonneg hP hss
  have hX : 0 ≤ l.out_h * l.out_w * l.size * l.size * l.c := by
    have := Int.mul_nonneg hPss hc
    have e : l.out_h * l.out_w * l.size * l.size * l.c
        = l.out_h * l.out_w * (l.size * l.size) * l.c := by ring
    rw [e]; exact this
  have hg0 : 0 < l.groups := by omega
  rw [get_workspace_size_eq l hg hg64 hX hfit, Int.tdiv_eq_ediv hc (by omega),
    Int.tdiv_eq_ediv (Int.mul_nonneg hss hc) (by omega)]
  refine ⟨?_, ?_, ?_⟩
  · have h1 : l.c / l.groups * l.groups ≤ l.c := Int.ediv_mul_le _ (by omega)
    have h2 : l.c / l.groups * l.size * l.size * (l.out_h * l.out_w)
        ≤ l.out_h * l.out_w * l.size * l.size * l.c / l.groups := by
      apply Int.le_ediv_of_mul_le hg0
      have := Int.mul_le_mul_of_nonneg_left h1 hPss
      linarith
    linarith
  · have h1 : l.size * l.size * l.c / l.groups * l.groups ≤ l.size * l.size * l.c :=
      Int.ediv_mul_le _ (by omega)
    have h2 : l.size * l.size * l.c / l.groups * (l.out_h * l.out_w)
        ≤ l.out_h * l.out_w * l.size * l.size * l.c / l.groups := by
      apply Int.le_ediv_of_mul_le hg0
      have := Int.mul_le_mul_of_nonneg_left h1 hP
      linarith
    linarith
  · rintro ⟨cg, hcg⟩
    have e1 : l.c / l.groups = cg := by
      rw [hcg, Int.mul_ediv_cancel_left _ (by omega)]
    have e2 : l.out_h * l.out_w * l.size * l.size * l.c
        = l.groups * (l.out_h * l.out_w * l.size * l.size * cg) := by
      rw [hcg]; ring
    rw [e1]
    rw [e2, Int.mul_ediv_cancel_left _ (by omega)]
    ring

theorem workspace_size_bounds_witness :
    4 * (odd_channels_layer.c.tdiv odd_channels_layer.groups * odd_channels_layer.size
          * odd_channels_layer.size * (odd_channels_layer.out_h * odd_channels_layer.out_w))
      ≤ get_workspace_size odd_channels_layer :=
  (workspace_size_bounds odd_channels_layer (by decide) (by decide) (by decide) (by decide)
    (by decide) (by decide) (by decide)).1

/-! ## Resize -/

theorem to_int_of_fits (x : Int) (h0 : -2 ^ 31 ≤ x) (h1 : x < 2 ^ 31) : to_int x = x := by
  unfold to_int
  have e : (x + 2 ^ 31) % 2 ^ 32 = x + 2 ^ 31 :=
    Int.emod_eq_of_lt (by omega) (by omega)
  rw [e]
  ring

theorem resize_outputs {α : Type} (l : Layer α) (w h : Int) :
    (resize_dilated_conv_layer l w h).outputs
      = to_int (to_int ((resize_dilated_conv_layer l w h).out_h
          * (resize_dilated_conv_layer l w h).out_w) * l.out_c) :=
  rfl

theorem resize_bytes {α : Type} (l : Layer α) (w h : Int) :
    (resize_dilated_conv_layer l w h).output_bytes
        = to_size_t (to_size_t (to_int ((resize_dilated_conv_layer l w h).batch
            * (resize_dilated_conv_layer l w h).outputs)) * 4) ∧
      (resize_dilated_conv_layer l w h).delta_bytes
        = to_size_t (to_size_t (to_int ((resize_dilated_conv_layer l w h).batch
            * (resize_dilated_conv_layer l w h).outputs)) * 4) :=
  ⟨rfl, rfl⟩

/-- C13, as stated, fails: resizing the 5x5 layer with one 3x3 filter (stride 1, no
padding, batch 1) to width and height 50002 gives `out_h = out_w = 50000`; the `int`
product `out_h*out_w*out_c` wraps, so `outputs = -1794967296`, not
`out_h*out_w*n = 2500000000`, and the byte count requested for `output` is
`2^64 - 7179869184`, not that of `2500000000` floats. -/
theorem resize_int_wrap_counterexample :
    (resize_dilated_conv_layer resize_source_layer 50002 50002).out_h = 50000 ∧
    (resize_dilated_conv_layer resize_source_layer 50002 50002).out_w = 50000 ∧
    (resize_dilated_conv_layer resize_source_layer 50002 50002).n = 1 ∧
    (resize_dilated_conv_layer resize_source_layer 50002 50002).batch = 1 ∧
    (resize_dilated_conv_layer resize_source_layer 50002 50002).outputs = -1794967296 ∧
    (resize_dilated_conv_layer resize_source_layer 50002 50002).outputs
      ≠ (resize_dilated_conv_layer resize_source_layer 50002 50002).out_h
        * (resize_dilated_conv_layer resize_source_layer 50002 50002).out_w
        * (resize_dilated_conv_layer resize_source_layer 50002 50002).n ∧
    (resize_dilated_conv_layer resize_source_layer 50002 50002).output_bytes
      = 2 ^ 64 - 7179869184 ∧
    (resize_dilated_conv_layer resize_source_layer 50002 50002).output_bytes
      ≠ 4 * ((resize_dilated_conv_layer resize_source_layer 50002 50002).batch
          * (resize_dilated_conv_layer resize_source_layer 50002 50002).out_h
          * (resize_dilated_conv_layer resize_source_layer 50002 50002).out_w
          * (resize_dilated_conv_layer resize_source_layer 50002 50002).n) := by
  decide

/-- C13 (amended). For every layer `l` produced by `make_dilated_conv_layer` and every
new `w`, `h`, `resize_dilated_conv_layer` leaves the weight, bias and scale buffers,
nweights, nbiases, n, c, size, stride, pad, dilate_rate, groups and batch unchanged,
and sets out_h, out_w, outputs, inputs and workspace_size to exactly the values
`make_dilated_conv_layer` computes for a fresh layer with the same parameters at the
new h and w; afterwards, when `out_h*out_w` and `out_h*out_w*n` are representable in
32-bit `int`, `outputs = out_h*out_w*n`, and when moreover `batch*out_h*out_w*n` is
non-negative and below `2^31`, the output and delta buffers are each requested with
exactly `batch*out_h*out_w*n` elements. -/
theorem resize_preserves_and_recomputes {α : Type} [Zero α] [One α] (init : Buf α)
    (batch h w c n groups size stride padding : Int) (activation : ACTIVATION α)
    (batch_normalize binary xnor adam dilate_rate : Int) (w' h' : Int) (l r f : Layer α)
    (hl : l = make_dilated_conv_layer init batch h w c n groups size stride padding activation
      batch_normalize binary xnor adam dilate_rate)
    (hr : r = resize_dilated_conv_layer l w' h')
    (hf : f = make_dilated_conv_layer init batch h' w' c n groups size stride padding activation
      batch_normalize binary xnor adam dilate_rate) :
    (r.weights = l.weights ∧ r.biases = l.biases ∧ r.scales = l.scales ∧
      r.nweights = l.nweights ∧ r.nbiases = l.nbiases ∧ r.n = l.n ∧ r.c = l.c ∧
      r.size = l.size ∧ r.stride = l.stride ∧ r.pad = l.pad ∧
      r.dilate_rate = l.dilate_rate ∧ r.groups = l.groups ∧ r.batch = l.batch) ∧
    (r.out_h = f.out_h ∧ r.out_w = f.out_w ∧ r.outputs = f.outputs ∧ r.inputs = f.inputs ∧
      r.workspace_size = f.workspace_size) ∧
    (-2 ^ 31 ≤ r.out_h * r.out_w → r.out_h * r.out_w < 2 ^ 31 →
      -2 ^ 31 ≤ r.out_h * r.out_w * r.n → r.out_h * r.out_w * r.n < 2 ^ 31 →
      r.outputs = r.out_h * r.out_w * r.n ∧
      (0 ≤ r.batch * r.out_h * r.out_w * r.n → r.batch * r.out_h * r.out_w * r.n < 2 ^ 31 →
        r.output_bytes = 4 * (r.batch * r.out_h * r.out_w * r.n) ∧
        r.delta_bytes = 4 * (r.batch * r.out_h * r.out_w * r.n))) := by
  have hc : l.out_c = r.n := by
    subst hl hr
    unfold make_dilated_conv_layer resize_dilated_conv_layer
    by_cases hb : binary = 0 <;> by_cases hx : xnor = 0 <;>
      by_cases hn : batch_normalize = 0 <;> simp [hb, hx, hn]
  refine ⟨?_, ?_, ?_⟩
  · subst hl hr
    exact ⟨rfl, rfl, rfl, rfl, rfl, rfl, rfl, rfl, rfl, rfl, rfl, rfl, rfl⟩
  · subst hl hr hf
    unfold make_dilated_conv_layer resize_dilated_conv_layer
    by_cases hb : binary = 0 <;> by_cases hx : xnor = 0 <;>
      by_cases hn : batch_normalize = 0 <;>
      simp [hb, hx, hn, dilated_conv_out_height, dilated_conv_out_width, get_workspace_size]
  · intro a0 a1 b0 b1
    have hout : r.outputs = r.out_h * r.out_w * r.n := by
      have e := resize_outputs l w' h'
      rw [← hr, hc, to_int_of_fits _ a0 a1, to_int_of_fits _ b0 b1] at e
      exact e
    refine ⟨hout, fun h0 h1 => ?_⟩
    have hb := resize_bytes l w' h'
    rw [← hr] at hb
    have e : r.batch * r.outputs = r.batch * r.out_h * r.out_w * r.n := by rw [hout]; ring
    rw [hb.1, hb.2, e, to_int_of_fits _ (by omega) h1, to_size_t_mul_left,
      to_size_t_of_fits _ (by omega) (by omega)]
    exact ⟨by ring, by ring⟩

theorem resize_preserves_and_recomputes_witness :
    (resize_dilated_conv_layer resize_source_layer 7 9).outputs = 35 ∧
      (resize_dilated_conv_layer resize_source_layer 7 9).outputs
        = (resize_dilated_conv_layer resize_source_layer 7 9).out_h
          * (resize_dilated_conv_layer resize_source_layer 7 9).out_w
          * (resize_dilated_conv_layer resize_source_layer 7 9).n ∧
      (resize_dilated_conv_layer resize_source_layer 7 9).output_bytes
        = 4 * ((resize_dilated_conv_layer resize_source_layer 7 9).batch
            * (resize_dilated_conv_layer resize_source_layer 7 9).out_h
            * (resize_dilated_conv_layer resize_source_layer 7 9).out_w
            * (resize_dilated_conv_layer resize_source_layer 7 9).n) ∧
      (resize_dilated_conv_layer resize_source_layer 7 9).delta_bytes
        = 4 * ((resize_dilated_conv_layer resize_source_layer 7 9).batch
            * (resize_dilated_conv_layer resize_source_layer 7 9).out_h
            * (resize_dilated_conv_layer resize_source_layer 7 9).out_w
            * (resize_dilated_conv_layer resize_source_layer 7 9).n) :=
  ⟨by decide,
    ((resize_preserves_and_recomputes (fun _ => 1) 1 5 5 1 1 1 3 1 0 linear_activation
      0 0 0 0 1 7 9 resize_source_layer (resize_dilated_conv_layer resize_source_layer 7 9)
      (make_dilated_conv_layer (fun _ => 1) 1 9 7 1 1 1 3 1 0 linear_activation 0 0 0 0 1)
      rfl rfl rfl).2.2 (by decide) (by decide) (by decide) (by decide)).1,
    ((resize_preserves_and_recomputes (fun _ => 1) 1 5 5 1 1 1 3 1 0 linear_activation
      0 0 0 0 1 7 9 resize_source_layer (resize_dilated_conv_layer resize_source_layer 7 9)
      (make_dilated_conv_layer (fun _ => 1) 1 9 7 1 1 1 3 1 0 linear_activation 0 0 0 0 1)
      rfl rfl rfl).2.2 (by decide) (by decide) (by decide) (by decide)).2
      (by decide) (by decide)⟩

/-! ## Weight gradient of the backward pass -/

/-- Accumulation rule: an observation to which iteration `i` adds `D i` has, after the
loop, grown by the sum of the `D i`. -/
theorem loop_accumulate {σ β : Type} [AddCommMonoid β] (obs : σ → β) (n : Int)
    (body : Int → σ → σ) (s : σ) (D : Int → β)
    (hstep : ∀ i, 0 ≤ i → i < n → ∀ s, obs (body i s) = obs s + D i) :
    obs (loop n body s) = obs s + ∑ i in Finset.range n.toNat, D (i : Int) := by
  rcases le_or_lt n 0 with hn | hn
  · rw [loop_of_nonpos n hn]
    have : n.toNat = 0 := Int.toNat_eq_zero.mpr hn
    simp [this]
  · obtain ⟨k, rfl⟩ : ∃ k : Nat, n = k := ⟨n.toNat, by omega⟩
    clear hn
    induction k with
    | zero => simp [loop]
    | succ k ih =>
      have := loop_natCast_succ k body s
      simp only [Nat.cast_succ] at *
      rw [this, hstep k (by omega) (by omega), ih (fun i h0 h1 => hstep i h0 (by omega))]
      simp only [Int.toNat_ofNat]
      have e : ((k : Int) + 1).toNat = k + 1 := by omega
      rw [e, Finset.sum_range_succ, add_assoc]

/-- A doubly nested store loop whose stores preserve a relation between values
preserves it at every element. -/
theorem loop2_store_relation {α : Type} (Rv : α → α → Prop) (M N : Int)
    (f : Int → Int → Int) (g : Int → Int → α → α) (C C' : Buf α) (p : Int)
    (hg : ∀ i j x y, Rv x y → Rv (g i j x) (g i j y)) (h : Rv (C p) (C' p)) :
    Rv (loop M (fun i C => loop N (fun j C => store C (f i j) (g i j (C (f i j)))) C) C p)
      (loop M (fun i C => loop N (fun j C => store C (f i j) (g i j (C (f i j)))) C) C' p) := by
  apply loop_relation (fun C C' : Buf α => Rv (C p) (C' p)) M _ _ C C' h
  intro i _ _ C1 C1' h1
  apply loop_relation (fun C C' : Buf α => Rv (C p) (C' p)) N _ _ C1 C1' h1
  intro j _ _ C2 C2' h2
  by_cases hp : p = f i j
  · subst hp
    rw [store_same, store_same]
    exact hg i j _ _ h2
  · rw [store_other _ _ _ _ hp, store_other _ _ _ _ hp]
    exact h2

/-- With `BETA = 1`, `gemm` adds: shifting `C` at `p` by `d` shifts the result at `p`
by `d`. -/
theorem gemm_beta_one_shift {α : Type} [CommRing α] (TA TB M N K : Int) (ALPHA : α)
    (A : Buf α) (lda : Int) (B : Buf α) (ldb : Int) (C C' : Buf α) (coff ldc p : Int) (d : α)
    (h : C p = C' p + d) :
    gemm TA TB M N K ALPHA A lda B ldb 1 C coff ldc p
      = gemm TA TB M N K ALPHA A lda B ldb 1 C' coff ldc p + d :=
  loop2_store_relation (fun x y => x = y + d) M N (fun i j => coff + (i * ldc + j))
    (fun i j x => 1 * x + ALPHA * gemm_dot TA TB K A lda B ldb i j) C C' p
    (fun i j x y hxy => by rw [hxy]; ring) h

/-- The inner product of `gemm` with `B` transposed, as a finite sum. -/
theorem gemm_dot_nt {α : Type} [CommRing α] (K : Int) (A : Buf α) (lda : Int) (B : Buf α)
    (ldb i j : Int) :
    gemm_dot 0 1 K A lda B ldb i j
      = ∑ k in Finset.range K.toNat, A (i * lda + (k : Int)) * B (j * ldb + (k : Int)) := by
  unfold gemm_dot
  simp only [ne_eq, not_true_eq_false, if_false, one_ne_zero, not_false_eq_true, if_true]
  exact loop_sum K (fun k => A (i * lda + k) * B (j * ldb + k))

/-- The weight-gradient component of one backward group step, whether or not
`net.delta` is present. -/
theorem backward_group_step_weight_updates {α : Type} [CommRing α] (l : Layer α)
    (net : Network α) (i j : Int) (s : BackwardState α) :
    (backward_group_step l net i j s).weight_updates
      = gemm 0 1 (l.n.tdiv l.groups) ((l.size * l.size * l.c).tdiv l.groups)
          (l.out_w * l.out_h) 1 (shift l.delta (output_offset l i j)) (l.out_w * l.out_h)
          (forward_gemm_b l net i j s.workspace) (l.out_w * l.out_h) 1 s.weight_updates
          (weight_offset l j) ((l.size * l.size * l.c).tdiv l.groups) := by
  unfold backward_group_step
  cases h : s.delta <;> simp only [h]

/-- The workspace and input-gradient components of one backward group step do not
depend on the weight-gradient buffer. -/
theorem backward_group_step_others {α : Type} [CommRing α] (l : Layer α)
    (net : Network α) (i j : Int) (s s' : BackwardState α) (hw : s.workspace = s'.workspace)
    (hd : s.delta = s'.delta) :
    (backward_group_step l net i j s).workspace = (backward_group_step l net i j s').workspace ∧
      (backward_group_step l net i j s).delta = (backward_group_step l net i j s').delta := by
  unfold backward_group_step
  rw [← hd, ← hw]
  cases h : s.delta <;> simp [h]

/-- The backward pass without batch normalization: multiply the gradient by the
activation derivative, then run the group loops. -/
theorem backward_weight_updates_eq {α : Type} [CommRing α] (E : Collaborators α)
    (l : Layer α) (net : Network α) (hbn : l.batch_normalize = 0) :
    (backward_dilated_conv_layer E l net).1.weight_updates
      = (loop l.batch
          (fun i s => loop l.groups
            (fun j s => backward_group_step { l with delta := activation_gradient l } net i j s)
            s)
          { weight_updates := l.weight_updates, workspace := net.workspace,
            delta := net.delta }).weight_updates := by
  unfold backward_dilated_conv_layer
  simp only [hbn, ne_eq, not_true_eq_false, if_false]
  rfl

theorem backward_delta_eq {α : Type} [CommRing α] (E : Collaborators α)
    (l : Layer α) (net : Network α) (hbn : l.batch_normalize = 0) :
    (backward_dilated_conv_layer E l net).1.delta
      = activation_gradient l := by
  unfold backward_dilated_conv_layer
  simp only [hbn, ne_eq, not_true_eq_false, if_false]
  rfl

/-- Offsets `j*X/g` leave room for blocks of length `L` whenever `L*g <= X`. -/
theorem floor_offsets_step (X g L j j' : Int) (hg : 1 ≤ g) (hL : 0 ≤ L) (hLg : L * g ≤ X)
    (hj : 0 ≤ j) (hjj : j < j') : (j * X).tdiv g + L ≤ (j' * X).tdiv g := by
  have hX : 0 ≤ X := le_trans (Int.mul_nonneg hL (by omega)) hLg
  rw [Int.tdiv_eq_ediv (Int.mul_nonneg hj hX) (by omega),
    Int.tdiv_eq_ediv (Int.mul_nonneg (by omega) hX) (by omega)]
  apply Int.le_ediv_of_mul_le (by omega)
  have h1 : j * X / g * g ≤ j * X := Int.ediv_mul_le _ (by omega)
  have h2 : (j + 1) * X ≤ j' * X := Int.mul_le_mul_of_nonneg_right (by omega) hX
  have e : (j * X / g + L) * g = j * X / g * g + L * g := by ring
  rw [e]
  linarith

/-- Blocks of length `L` at the offsets `j*X/g` do not overlap whenever `L*g <= X`. -/
theorem floor_offsets_disjoint (X g L j j' x x' : Int) (hg : 1 ≤ g) (hLg : L * g ≤ X)
    (hj : 0 ≤ j) (hj' : 0 ≤ j') (hx0 : 0 ≤ x) (hx1 : x < L) (hx0' : 0 ≤ x') (hx1' : x' < L)
    (h : (j * X).tdiv g + x = (j' * X).tdiv g + x') : j = j' := by
  rcases lt_trichotomy j j' with hlt | heq | hgt
  · have := floor_offsets_step X g L j j' hg (by omega) hLg hj hlt
    omega
  · exact heq
  · have := floor_offsets_step X g L j' j hg (by omega) hLg hj' hgt
    omega

/-- When `groups` divides `c` and either `size != 1` or the kernel is 1x1 with stride 1,
no padding and no dilation, the inner product that iteration `(i, j)` of the backward
pass adds to entry `[r][t]` of the weight gradient is the sum over the output positions
of gradient times unfold entry, whatever the workspace held before. -/
theorem backward_dot_unfold {α : Type} [CommRing α] (l : Layer α) (net : Network α)
    (A : Buf α) (hg : 1 ≤ l.groups) (hgc : l.groups ∣ l.c)
    (hsize : l.size ≠ 1 ∨ (l.stride = 1 ∧ l.pad = 0 ∧ l.dilate_rate = 1 ∧ 0 ≤ l.w))
    (hoh : l.out_h = dilated_conv_out_height l) (how : l.out_w = dilated_conv_out_width l)
    (i j r t : Int) (ht0 : 0 ≤ t) (ht1 : t < (l.size * l.size * l.c).tdiv l.groups)
    (ws : Buf α) :
    gemm_dot 0 1 (l.out_w * l.out_h) A (l.out_w * l.out_h)
        (forward_gemm_b l net i j ws) (l.out_w * l.out_h) r t
      = ∑ q in Finset.range (l.out_h * l.out_w).toNat,
          A (r * (l.out_h * l.out_w) + (q : Int))
            * unfold_entry (shift net.input (input_offset l i j)) l.h l.w l.size l.stride
                l.pad l.dilate_rate l.out_w t (q : Int) := by
  rw [gemm_dot_nt, Int.mul_comm l.out_w l.out_h]
  apply Finset.sum_congr rfl
  intro q hq
  have hq1 : (q : Int) < l.out_h * l.out_w := by
    have := Finset.mem_range.mp hq
    omega
  congr 1
  exact forward_gemm_b_entry l net hg hgc hsize hoh how i j t (q : Int) ht0 ht1 (by omega)
    hq1 ws

/-- Truncating division by a positive number rounds a quotient of at least one down. -/
theorem tdiv_mul_le_of_pos (n g : Int) (hg : 1 ≤ g) (hm : 1 ≤ n.tdiv g) : n.tdiv g * g ≤ n := by
  have hn : 0 ≤ n := by
    by_contra hneg
    have h1 : 0 ≤ (-n).tdiv g := Int.tdiv_nonneg (by omega) (by omega)
    have h2 : (-n).tdiv g = -(n.tdiv g) := Int.neg_tdiv _ _
    omega
  rw [Int.tdiv_eq_ediv hn (by omega)]
  exact Int.ediv_mul_le _ (by omega)

/-- The group loops of the backward pass add to entry `[r][t]` of the weight-gradient
slice of group `j` the inner products computed by the iterations `(i, j)`, `i < batch`. -/
theorem backward_loops_weight_updates_at {α : Type} [CommRing α] (l : Layer α)
    (net : Network α) (s0 : BackwardState α) (hg : 1 ≤ l.groups)
    (hfit : l.n.tdiv l.groups * (l.size * l.size * l.c).tdiv l.groups * l.groups ≤ l.nweights)
    (j r t : Int) (D : Int → α) (hj0 : 0 ≤ j) (hj1 : j < l.groups)
    (hr0 : 0 ≤ r) (hr1 : r < l.n.tdiv l.groups) (ht0 : 0 ≤ t)
    (ht1 : t < (l.size * l.size * l.c).tdiv l.groups)
    (hD : ∀ i ws, gemm_dot 0 1 (l.out_w * l.out_h) (shift l.delta (output_offset l i j))
      (l.out_w * l.out_h) (forward_gemm_b l net i j ws) (l.out_w * l.out_h) r t = D i) :
    (loop l.batch (fun i s => loop l.groups (fun j s => backward_group_step l net i j s) s)
        s0).weight_updates
        (weight_offset l j + (r * (l.size * l.size * l.c).tdiv l.groups + t))
      = s0.weight_updates
          (weight_offset l j + (r * (l.size * l.size * l.c).tdiv l.groups + t))
        + ∑ i in Finset.range l.batch.toNat, D (i : Int) := by
  generalize hnd : (l.size * l.size * l.c).tdiv l.groups = nd at *
  generalize hm : l.n.tdiv l.groups = m at *
  have hx1 : r * nd + t < m * nd := by
    have : (r + 1) * nd ≤ m * nd := Int.mul_le_mul_of_nonneg_right (by omega) (by omega)
    linarith
  have hx0 : 0 ≤ r * nd + t := by
    have : 0 ≤ r * nd := Int.mul_nonneg hr0 (by omega)
    omega
  generalize hp : weight_offset l j + (r * nd + t) = p
  have hfr : ∀ i' j', 0 ≤ j' → j' ≠ j → ∀ s : BackwardState α,
      (backward_group_step l net i' j' s).weight_updates p = s.weight_updates p := by
    intro i' j' hj0' hne s
    rw [backward_group_step_weight_updates, hnd, hm]
    apply gemm_frame
    intro r' t' hr0' hr1' ht0' ht1' heq
    apply hne
    have hx1' : r' * nd + t' < m * nd := by
      have : (r' + 1) * nd ≤ m * nd := Int.mul_le_mul_of_nonneg_right (by omega) (by omega)
      linarith
    have hx0' : 0 ≤ r' * nd + t' := by
      have : 0 ≤ r' * nd := Int.mul_nonneg hr0' (by omega)
      omega
    rw [← hp] at heq
    unfold weight_offset at heq
    exact (floor_offsets_disjoint l.nweights l.groups (m * nd) j j' (r * nd + t)
      (r' * nd + t') hg hfit hj0 hj0' hx0 hx1 hx0' hx1' heq).symm
  have hhit : ∀ i (s : BackwardState α),
      (backward_group_step l net i j s).weight_updates p = s.weight_updates p + D i := by
    intro i s
    rw [backward_group_step_weight_updates, hnd, hm, ← hp,
      gemm_at _ _ _ _ _ _ _ _ _ _ _ _ _ _ r t hr0 hr1 ht0 ht1 (le_refl _), hD]
    simp
  apply loop_accumulate (fun s : BackwardState α => s.weight_updates p)
  intro i hi0 hi1 s
  rw [loop_hit (fun s : BackwardState α => s.weight_updates p) l.groups _ s j hj0 hj1]
  · rw [hhit]
    congr 1
    apply loop_frame (fun s : BackwardState α => s.weight_updates p)
    intro j' hj0' hj1' s2
    exact hfr i j' hj0' (by omega) s2
  · intro j' hj0' hj1' hne s2
    exact hfr i j' hj0' hne s2

/-- The group loops of the backward pass add to the weight-gradient buffer: shifting the
buffer at `p` by `d` beforehand shifts it at `p` by `d` afterwards. -/
theorem backward_loops_shift {α : Type} [CommRing α] (l : Layer α) (net : Network α)
    (s s' : BackwardState α) (p : Int) (d : α) (hw : s.workspace = s'.workspace)
    (hd : s.delta = s'.delta) (hu : s.weight_updates p = s'.weight_updates p + d) :
    (loop l.batch (fun i s => loop l.groups (fun j s => backward_group_step l net i j s) s)
        s).weight_updates p
      = (loop l.batch (fun i s => loop l.groups (fun j s => backward_group_step l net i j s) s)
        s').weight_updates p + d := by
  have key := loop_relation
    (fun a b : BackwardState α => a.workspace = b.workspace ∧ a.delta = b.delta ∧
      a.weight_updates p = b.weight_updates p + d)
    l.batch (fun i s => loop l.groups (fun j s => backward_group_step l net i j s) s)
    (fun i s => loop l.groups (fun j s => backward_group_step l net i j s) s) s s'
    ⟨hw, hd, hu⟩
    (fun i _ _ a b hab =>
      loop_relation
        (fun a b : BackwardState α => a.workspace = b.workspace ∧ a.delta = b.delta ∧
          a.weight_updates p = b.weight_updates p + d)
        l.groups _ _ a b hab
        (fun j _ _ a b hab => by
          have h1 := backward_group_step_others l net i j a b hab.1 hab.2.1
          refine ⟨h1.1, h1.2, ?_⟩
          rw [backward_group_step_weight_updates, backward_group_step_weight_updates, hab.1]
          exact gemm_beta_one_shift _ _ _ _ _ _ _ _ _ _ _ _ _ _ p d hab.2.2))
  exact key.2.2

/-- C11 (amended). For every layer with batch_normalize = 0,
`backward_dilated_conv_layer` adds to `weight_updates` rather than overwriting it,
whether or not `net.delta` is present: what the call adds to an element does not depend
on the element's previous value.  When moreover groups >= 1 divides c, either
size != 1, or size = 1 with stride = 1, pad = 0, dilate_rate = 1 and w >= 0, and
the derived fields are those set at construction (`nweights`, `out_h`, `out_w`), for
every group `j` the `weight_updates` slice of group `j` after the call equals its value
before the call plus the sum over all batch elements `i < batch` of
`delta_slice_ij x B_ij^T`, where `delta_slice_ij` is the `(n/groups) x (out_h*out_w)`
gradient slice after the activation-derivative step and `B_ij` is the unfolded input
slice. -/
theorem backward_weight_gradient {α : Type} [CommRing α] (E : Collaborators α) (l : Layer α)
    (net : Network α) (hbn : l.batch_normalize = 0) :
    (∀ (prior : Buf α) (p : Int),
      (backward_dilated_conv_layer E { l with weight_updates := prior } net).1.weight_updates p
          - prior p
        = (backward_dilated_conv_layer E l net).1.weight_updates p - l.weight_updates p) ∧
    (backward_dilated_conv_layer E l net).1.delta = activation_gradient l ∧
    (1 ≤ l.groups → l.groups ∣ l.c →
      (l.size ≠ 1 ∨ (l.stride = 1 ∧ l.pad = 0 ∧ l.dilate_rate = 1 ∧ 0 ≤ l.w)) →
      l.nweights = l.c.tdiv l.groups * l.n * l.size * l.size →
      l.out_h = dilated_conv_out_height l → l.out_w = dilated_conv_out_width l →
      ∀ j r t, 0 ≤ j → j < l.groups → 0 ≤ r → r < l.n.tdiv l.groups →
        0 ≤ t → t < (l.size * l.size * l.c).tdiv l.groups →
        (backward_dilated_conv_layer E l net).1.weight_updates
            (weight_offset l j + (r * (l.size * l.size * l.c).tdiv l.groups + t))
          = l.weight_updates
              (weight_offset l j + (r * (l.size * l.size * l.c).tdiv l.groups + t))
            + stated_weight_gradient l net j r t) := by
  refine ⟨?_, backward_delta_eq E l net hbn, ?_⟩
  · intro prior p
    have e1 : (backward_dilated_conv_layer E { l with weight_updates := prior }
          net).1.weight_updates
        = (loop l.batch
            (fun i s => loop l.groups
              (fun j s => backward_group_step { l with delta := activation_gradient l } net i j s)
              s)
            { weight_updates := prior, workspace := net.workspace,
              delta := net.delta }).weight_updates :=
      backward_weight_updates_eq E { l with weight_updates := prior } net hbn
    rw [e1, backward_weight_updates_eq E l net hbn]
    have key := backward_loops_shift { l with delta := activation_gradient l } net
      { weight_updates := prior, workspace := net.workspace, delta := net.delta }
      { weight_updates := l.weight_updates, workspace := net.workspace, delta := net.delta }
      p (prior p - l.weight_updates p) rfl rfl (by simp)
    have key' : (loop l.batch
            (fun i s => loop l.groups
              (fun j s => backward_group_step { l with delta := activation_gradient l } net i j s)
              s)
            { weight_updates := prior, workspace := net.workspace,
              delta := net.delta }).weight_updates p
        = (loop l.batch
            (fun i s => loop l.groups
              (fun j s => backward_group_step { l with delta := activation_gradient l } net i j s)
              s)
            { weight_updates := l.weight_updates, workspace := net.workspace,
              delta := net.delta }).weight_updates p + (prior p - l.weight_updates p) := key
    rw [key']
    ring
  · intro hg hgc hsize hnw hoh how j r t hj0 hj1 hr0 hr1 ht0 ht1
    have hg0 : l.groups ≠ 0 := by omega
    have hfit : l.n.tdiv l.groups * (l.size * l.size * l.c).tdiv l.groups * l.groups
        ≤ l.nweights := by
      obtain ⟨cg, hcg⟩ := hgc
      have ecg : l.c.tdiv l.groups = cg := by
        rw [hcg, Int.mul_comm, Int.mul_tdiv_cancel _ hg0]
      have ek : (l.size * l.size * l.c).tdiv l.groups = cg * l.size * l.size := by
        rw [hcg, show l.size * l.size * (l.groups * cg) = (cg * l.size * l.size) * l.groups
          by ring, Int.mul_tdiv_cancel _ hg0]
      have hm := tdiv_mul_le_of_pos l.n l.groups hg (by omega)
      rw [hnw, ecg]
      rw [ek] at ht1 ⊢
      have := Int.mul_le_mul_of_nonneg_right hm (by omega : 0 ≤ cg * l.size * l.size)
      linarith
    rw [backward_weight_updates_eq E l net hbn]
    have key := backward_loops_weight_updates_at { l with delta := activation_gradient l } net
      { weight_updates := l.weight_updates, workspace := net.workspace, delta := net.delta }
      hg hfit j r t
      (fun i => ∑ q in Finset.range (l.out_h * l.out_w).toNat,
        activation_gradient l (output_offset l i j + (r * (l.out_h * l.out_w) + (q : Int)))
          * unfold_entry (shift net.input (input_offset l i j)) l.h l.w l.size l.stride
              l.pad l.dilate_rate l.out_w t (q : Int))
      hj0 hj1 hr0 hr1 ht0 ht1
      (fun i ws => backward_dot_unfold { l with delta := activation_gradient l } net
        (shift (activation_gradient l) (output_offset l i j)) hg hgc hsize hoh how i j r t
        ht0 ht1 ws)
    exact key

/-- C11, as stated, fails on the 1x1-kernel, stride-2 layer (batch 1, a 3x3x1 input
`1, ..., 9`, one filter, no padding, no dilation, 2x2 output, gradient 1 everywhere):
the call adds to `weight_updates[0]` the gradient times the first four input elements
(sum 10), where the unfold matrix holds the inputs at rows and columns 0 and 2
(sum 20). -/
theorem backward_stated_gradient_counterexample :
    (backward_dilated_conv_layer idle_collaborators bypass_backward_layer
        bypass_test_net).1.weight_updates
        (weight_offset bypass_backward_layer 0
          + (0 * (bypass_backward_layer.size * bypass_backward_layer.size
              * bypass_backward_layer.c).tdiv bypass_backward_layer.groups + 0)) = 10 ∧
    bypass_backward_layer.weight_updates
        (weight_offset bypass_backward_layer 0
          + (0 * (bypass_backward_layer.size * bypass_backward_layer.size
              * bypass_backward_layer.c).tdiv bypass_backward_layer.groups + 0)) = 0 ∧
    stated_weight_gradient bypass_backward_layer bypass_test_net 0 0 0 = 20 ∧
    (backward_dilated_conv_layer idle_collaborators bypass_backward_layer
        bypass_test_net).1.weight_updates
        (weight_offset bypass_backward_layer 0
          + (0 * (bypass_backward_layer.size * bypass_backward_layer.size
              * bypass_backward_layer.c).tdiv bypass_backward_layer.groups + 0))
      ≠ bypass_backward_layer.weight_updates
          (weight_offset bypass_backward_layer 0
            + (0 * (bypass_backward_layer.size * bypass_backward_layer.size
                * bypass_backward_layer.c).tdiv bypass_backward_layer.groups + 0))
        + stated_weight_gradient bypass_backward_layer bypass_test_net 0 0 0 := by
  decide

theorem backward_weight_gradient_witness :
    (pointwise_gradient_layer.weight_updates 0 = 1000 ∧
      stated_weight_gradient pointwise_gradient_layer ramp_net 0 0 0 = 1404 ∧
      (backward_dilated_conv_layer idle_collaborators pointwise_gradient_layer
          ramp_net).1.weight_updates
          (weight_offset pointwise_gradient_layer 0
            + (0 * (pointwise_gradient_layer.size * pointwise_gradient_layer.size
                * pointwise_gradient_layer.c).tdiv pointwise_gradient_layer.groups + 0))
        = pointwise_gradient_layer.weight_updates
            (weight_offset pointwise_gradient_layer 0
              + (0 * (pointwise_gradient_layer.size * pointwise_gradient_layer.size
                  * pointwise_gradient_layer.c).tdiv pointwise_gradient_layer.groups + 0))
          + stated_weight_gradient pointwise_gradient_layer ramp_net 0 0 0) ∧
    (grouped_gradient_layer.weight_updates
          (weight_offset grouped_gradient_layer 1
            + (1 * (grouped_gradient_layer.size * grouped_gradient_layer.size
                * grouped_gradient_layer.c).tdiv grouped_gradient_layer.groups + 4)) = 100 ∧
      stated_weight_gradient grouped_gradient_layer ramp_net 1 1 4 = 23736 ∧
      (backward_dilated_conv_layer idle_collaborators grouped_gradient_layer
          ramp_net).1.weight_updates
          (weight_offset grouped_gradient_layer 1
            + (1 * (grouped_gradient_layer.size * grouped_gradient_layer.size
                * grouped_gradient_layer.c).tdiv grouped_gradient_layer.groups + 4))
        = grouped_gradient_layer.weight_updates
            (weight_offset grouped_gradient_layer 1
              + (1 * (grouped_gradient_layer.size * grouped_gradient_layer.size
                  * grouped_gradient_layer.c).tdiv grouped_gradient_layer.groups + 4))
          + stated_weight_gradient grouped_gradient_layer ramp_net 1 1 4) :=
  ⟨⟨by decide, by decide,
    (backward_weight_gradient idle_collaborators pointwise_gradient_layer ramp_net rfl).2.2
      (by decide) (by decide) (by decide) (by decide) (by decide) (by decide) 0 0 0
      (by decide) (by decide) (by decide) (by decide) (by decide) (by decide)⟩,
   ⟨by decide, by decide,
    (backward_weight_gradient idle_collaborators grouped_gradient_layer ramp_net rfl).2.2
      (by decide) (by decide) (by decide) (by decide) (by decide) (by decide) 1 1 4
      (by decide) (by decide) (by decide) (by decide) (by decide) (by decide)⟩⟩

end DilatedConv
